import Mathlib

/-!
# RODFT00 via R2HC (`reodft/rodft00e-r2hc.c`)

A shallow embedding of the solver that computes a Type-I discrete sine
transform through a real-to-half-complex transform of half the extent, with
pre- and post-processing, followed by theorems about it.

Conventions of the embedding.

* `R` (the floating-point type of the library) is an arbitrary field `α`:
  statements over `ℝ` are statements in exact real arithmetic, and the same
  definitions run over `ℚ`.
* `uint` is a 32-bit unsigned integer: a natural number below `UINT_MOD`,
  with wrapping subtraction and addition written out (`usub`, `uadd`).
* An array reached through a pointer is a function from offsets to values.
  Strides are `int` and loop counters `uint`, so an index `is * j` or `os * k`
  is computed in `unsigned int`, modulo `2^32` (`sidx`), and is never
  negative.  All reads of `I` precede all writes of `O`, so the two may alias.
* The scratch array has `n` cells; an access outside it, and a read through
  the unset table pointer `W`, are faults.
* Calls that leave the file (allocator, planner, twiddle constructor, the
  sub-plan) are recorded in call logs; memory accesses of `apply` are
  recorded in an access log.
-/

namespace Rodft00e

/-! ## Machine integers -/

/-- Modulus of the C type `uint` (`unsigned int`, 32 bits). -/
def UINT_MOD : Nat := 4294967296

/-- A value of the C type `uint`. -/
structure uint where
  val : Nat
  isLt : val < UINT_MOD

/-- Wrapping subtraction `a - b` on `uint` values. -/
def usub (a b : Nat) : Nat := (UINT_MOD + a - b) % UINT_MOD

/-- Wrapping addition `a + b` on `uint` values. -/
def uadd (a b : Nat) : Nat := (a + b) % UINT_MOD

/-- Wrapping multiplication `a * b` on `uint` values. -/
def umul (a b : Nat) : Nat := (a * b) % UINT_MOD

/-- Quotient `a / b` on `uint` values (never leaves the range). -/
def udiv (a : uint) (b : Nat) : uint :=
  ⟨a.val / b, Nat.lt_of_le_of_lt (Nat.div_le_self _ _) a.isLt⟩

/-- The index `s * k` of the source for a stride `s` of type `int` and a
counter `k` of type `uint`: C converts the stride to `unsigned int` and takes
the product modulo `2^32`; the array is then indexed by that unsigned value. -/
def sidx (s : Int) (k : Nat) : Int := (s * (k : Int)) % (UINT_MOD : Int)

/-- No index `s * k` with `k < m` wraps: every product lies in the range of
`unsigned int`, so the cell the source indexes is the cell `s * k`. -/
def StrideFits (s : Int) (m : Nat) : Prop :=
  ∀ k : Nat, k < m → 0 ≤ s * (k : Int) ∧ s * (k : Int) < (UINT_MOD : Int)

/-- The indices `s * k` with `k < m` are pairwise distinct cells. -/
def StrideInj (s : Int) (m : Nat) : Prop :=
  ∀ a : Nat, a < m → ∀ b : Nat, b < m → sidx s a = sidx s b → a = b

instance (s : Int) (m : Nat) : Decidable (StrideFits s m) := by
  unfold StrideFits
  infer_instance

instance (s : Int) (m : Nat) : Decidable (StrideInj s m) := by
  unfold StrideInj
  infer_instance

/-! ## Problems, plans and twiddle tables (declared in headers outside this file) -/

/-- Modelled from the spec: the transform-kind tag of a real-transform problem
(`rdft_kind`, declared in a header that is not part of the sources).  `R2HC` is
the canonical real-to-half-complex transform, `RODFT00` the targeted
odd-symmetric sine transform; every other kind is `other`. -/
inductive rdft_kind where
  | R2HC
  | RODFT00
  | other (tag : Nat)
  deriving DecidableEq, Repr

/-- Modelled from the spec: one dimension of a tensor (`iodim`): extent and
input/output strides. -/
structure iodim where
  n : uint
  is : Int
  os : Int

/-- Modelled from the spec: a tensor is a rank and `rnk` dimensions. -/
structure tensor where
  rnk : Nat
  dims : Fin rnk → iodim

/-- An address (a pointer to `R`). -/
abbrev ptr := Nat

/-- Modelled from the spec: a real-transform problem descriptor
(`problem_rdft`). -/
structure problem_rdft where
  sz : tensor
  vecsz : tensor
  I : ptr
  O : ptr
  kind : rdft_kind

/-- A problem: a real-transform problem (`RDFTP` holds) or a problem of some
other class. -/
inductive problem where
  | rdft (p : problem_rdft)
  | other (tag : Nat)

/-- Modelled from the spec: the ranks a solver can report (`BAD` is the
rejection rank, `UGLY` the low-preference rank). -/
inductive score_t where
  | BAD
  | UGLY
  | GOOD
  deriving DecidableEq, Repr

/-- Modelled from the spec: the cost estimate of a plan (`opcnt`). -/
structure opcnt where
  add : Nat
  mul : Nat
  fma : Nat
  other : Nat
  deriving DecidableEq, Repr

/-- A sub-plan as this file uses it (`plan_rdft`): its cost estimate and its
`apply` function, here always called in place on the scratch array. -/
structure plan (α : Type) where
  ops : opcnt
  apply : (Nat → α) → (Nat → α)

/-- Operations of a twiddle instruction. -/
inductive tw_op where
  | TW_SIN
  | TW_NEXT
  deriving DecidableEq, Repr

/-- A twiddle instruction `{ op, v, i }`. -/
structure tw_instr where
  op : tw_op
  v : Nat
  i : Nat
  deriving DecidableEq, Repr

/-- A twiddle table (`twid`): the coefficient array and the parameters it was
requested with. -/
structure twid (α : Type) where
  W : Nat → α
  n : Nat
  r : Nat
  m : Nat

/-- The plan of this solver (`P`). `ops` is `super.super.ops`; `td` and `W`
are `none` when the C pointer is null. -/
structure P (α : Type) where
  ops : opcnt
  cld : plan α
  td : Option (twid α)
  W : Option (Nat → α)
  is : Int
  os : Int
  n : uint

/-- Calls that leave this file, in the order they are made. -/
inductive Call (α : Type) where
  | fftw_malloc (len : Nat)
  | mktensor_1d (n : Nat) (is os : Int)
  | mkproblem_rdft (cldp : problem)
  | tensor_destroy
  | MKPLAN (cldp : problem)
  | problem_destroy (cldp : problem)
  | free_buf
  | MKPLAN_RDFT
  | AWAKE (flg : Bool)
  | mktwiddle (instr : List tw_instr) (n r m : Nat)
  | twiddle_destroy (td : twid α)
  | plan_destroy_cld
  | free_ego

/-- Whether a call consults the planner. -/
def Call.isMKPLAN {α : Type} : Call α → Bool
  | .MKPLAN _ => true
  | _ => false

/-- Whether a call creates (or looks up) a twiddle table. -/
def Call.isMktwiddle {α : Type} : Call α → Bool
  | .mktwiddle _ _ _ _ => true
  | _ => false

/-- Whether a call releases a twiddle table. -/
def Call.isTwiddleDestroy {α : Type} : Call α → Bool
  | .twiddle_destroy _ => true
  | _ => false

/-! ## The solver: `applicable`, `score`, `mkplan` -/

/-- The function `applicable`. The conjunction is evaluated left to right and
stops at the first false operand, so `dims[0]` is read only when `rnk == 1`. -/
def applicable : problem → Bool
  | .rdft p =>
    if h : p.sz.rnk = 1 then
      (p.vecsz.rnk == 0
        && p.kind == rdft_kind.RODFT00
        && (p.sz.dims ⟨0, by omega⟩).n.val % 2 == 0)
    else false
  | .other _ => false

/-- The function `score`; the planner argument is unused. -/
def score {Planner : Type} (p : problem) (_plnr : Planner) : score_t :=
  if applicable p then score_t.UGLY else score_t.BAD

/-- The cast `p = (const problem_rdft *) p_` after `applicable` succeeded,
together with `p->sz.dims[0]`. -/
def rdft_dim0 : (p_ : problem) → applicable p_ = true → problem_rdft × iodim
  | .rdft p, h =>
    (p, p.sz.dims ⟨0, by
      unfold applicable at h
      by_cases h1 : p.sz.rnk = 1
      · omega
      · simp [h1] at h⟩)
  | .other _, h => absurd h (by simp [applicable])

/-- The tensor `X(mktensor_1d)(n, is, os)`. -/
def mktensor_1d (n : uint) (is os : Int) : tensor :=
  ⟨1, fun _ => ⟨n, is, os⟩⟩

/-- The sub-problem `mkplan` builds: `X(mkproblem_rdft)(sz, p->vecsz, buf, buf, R2HC)`
with `sz = X(mktensor_1d)(n, 1, 1)`. -/
def mkplan_cldp (vecsz : tensor) (n : uint) (buf : ptr) : problem :=
  .rdft ⟨mktensor_1d n 1 1, vecsz, buf, buf, rdft_kind.R2HC⟩

/-- The body of `mkplan` after the applicability test and the cast: `p` is the
problem, `d` its dimension `p->sz.dims[0]`. -/
def mkplan_body {α : Type} (plnr : problem → Option (plan α)) (buf : ptr)
    (p : problem_rdft) (d : iodim) : Option (P α) × List (Call α) :=
  let n := udiv d.n 2
  let cldp := mkplan_cldp p.vecsz n buf
  let log : List (Call α) :=
    [.fftw_malloc n.val, .mktensor_1d n.val 1 1, .mkproblem_rdft cldp, .tensor_destroy,
      .MKPLAN cldp, .problem_destroy cldp, .free_buf]
  match plnr cldp with
  | none => (none, log)
  | some cld =>
    (some
      { ops := cld.ops
        cld := cld
        td := none
        W := none
        is := d.is
        os := d.os
        n := n },
     log ++ [.MKPLAN_RDFT])

/-- The function `mkplan`. `plnr` answers `MKPLAN(plnr, cldp)`; `buf` is the
address `fftw_malloc` returns. The result is the plan (or `none` for the null
pointer) and the log of outside calls. -/
def mkplan {α : Type} (plnr : problem → Option (plan α)) (buf : ptr) (p_ : problem) :
    Option (P α) × List (Call α) :=
  if h : applicable p_ = true then
    mkplan_body plnr buf (rdft_dim0 p_ h).1 (rdft_dim0 p_ h).2
  else (none, [])

/-! ## Plan lifecycle: `awake`, `destroy` -/

/-- The static table `rodft00e_tw`. -/
def rodft00e_tw : List tw_instr :=
  [⟨tw_op.TW_SIN, 0, 1⟩, ⟨tw_op.TW_NEXT, 1, 0⟩]

/-- The function `awake`. `mktw` answers `X(mktwiddle)`. The result is the
plan after the call and the log of outside calls. -/
def awake {α : Type} (mktw : List tw_instr → Nat → Nat → Nat → twid α)
    (ego : P α) (flg : Bool) : P α × List (Call α) :=
  let log0 : List (Call α) := [.AWAKE flg]
  if flg then
    match ego.td with
    | none =>
      let tn := umul 2 ego.n.val
      let tm := uadd ego.n.val 1 / 2
      let td := mktw rodft00e_tw tn 1 tm
      ({ ego with td := some td, W := some td.W },
       log0 ++ [.mktwiddle rodft00e_tw tn 1 tm])
    | some _ => (ego, log0)
  else
    let log1 : List (Call α) :=
      match ego.td with
      | some td => [.twiddle_destroy td]
      | none => []
    ({ ego with td := none, W := none }, log0 ++ log1)

/-- The function `destroy`: `X(plan_destroy)(ego->cld); X(free)(ego);`. -/
def destroy {α : Type} (_ego : P α) : List (Call α) :=
  [.plan_destroy_cld, .free_ego]

/-! ## Execution: `apply` -/

/-- A memory access of `apply`. -/
inductive Access where
  | readI (off : Int)
  | readW (i : Nat)
  | readBuf (i : Nat)
  | writeBuf (i : Nat)
  | readO (off : Int)
  | writeO (off : Int)
  | callCld
  deriving DecidableEq, Repr

/-- A fault of `apply`: a read through the null table pointer, or an access
to the scratch array outside its `n` cells. -/
inductive Fault where
  | nullW
  | bufRange (i : Nat)
  deriving DecidableEq, Repr

/-- The memory `apply` works on: the scratch array, the output array and the
log of accesses made so far. -/
structure Mem (α : Type) where
  buf : Nat → α
  O : Int → α
  log : List Access

/-- Record accesses in the log. -/
def Mem.note {α : Type} (s : Mem α) (a : List Access) : Mem α :=
  { s with log := s.log ++ a }

/-- The store `buf[i] = v`. -/
def Mem.setBuf {α : Type} (s : Mem α) (i : Nat) (v : α) : Mem α :=
  { s with buf := Function.update s.buf i v, log := s.log ++ [.writeBuf i] }

/-- The store `O[off] = v`. -/
def Mem.setO {α : Type} (s : Mem α) (off : Int) (v : α) : Mem α :=
  { s with O := Function.update s.O off v, log := s.log ++ [.writeO off] }

/-- The loop `for (i = 1; i < n - i; ++i)` of `apply`, entered at `i`; it
returns the value of `i` at exit and the memory. -/
def preLoop {α : Type} [Field α] (W : Option (Nat → α)) (I : Int → α) (is : Int) (n : Nat)
    (i : Nat) (s : Mem α) : Except Fault (Nat × Mem α) :=
  if i < usub n i then
    let a := I (sidx is (usub i 1))
    let b := I (sidx is (usub (usub n i) 1))
    let s := s.note [.readI (sidx is (usub i 1)), .readI (sidx is (usub (usub n i) 1))]
    match W with
    | none => .error .nullW
    | some w =>
      let apb := w i * (a + b)
      let amb := 0.5 * (a - b)
      let s := s.note [.readW i]
      if i < n then
        let s := s.setBuf i (apb + amb)
        if usub n i < n then
          let s := s.setBuf (usub n i) (apb - amb)
          preLoop W I is n (uadd i 1) s
        else .error (.bufRange (usub n i))
      else .error (.bufRange i)
  else .ok (i, s)
termination_by UINT_MOD - i
decreasing_by
  simp only [usub, uadd, UINT_MOD] at *
  omega

/-- The loop `for (i = 1; i + i < n - 1; ++i)` of `apply`, entered at `i`; it
returns the value of `i` at exit and the memory. -/
def postLoop {α : Type} [Field α] (os : Int) (n : Nat) (hn : n < UINT_MOD)
    (i : Nat) (s : Mem α) : Except Fault (Nat × Mem α) :=
  if uadd i i < usub n 1 then
    let k := uadd i i
    if usub n i < n then
      let s := (s.note [.readBuf (usub n i)]).setO (sidx os (usub k 1)) (-(s.buf (usub n i)))
      if i < n then
        let s := (s.note [.readO (sidx os (usub k 2)), .readBuf i]).setO (sidx os k)
          (s.O (sidx os (usub k 2)) + s.buf i)
        postLoop os n hn (uadd i 1) s
      else .error (.bufRange i)
    else .error (.bufRange (usub n i))
  else .ok (i, s)
termination_by n - i
decreasing_by
  simp only [uadd, UINT_MOD] at *
  omega

/-- Number of cells of the scratch array `apply` allocates:
`buf = fftw_malloc(sizeof(R) * n, BUFFERS)`. -/
def apply_buf_len {α : Type} (ego : P α) : Nat := ego.n.val

/-- First part of `apply`: allocation of the scratch array (whose cells hold
`scratch` at first) and pre-processing of the input into it. -/
def apply_pre {α : Type} [Field α] (ego : P α) (scratch : Nat → α) (I O : Int → α) :
    Except Fault (Mem α) :=
  let n := ego.n.val
  let s : Mem α := ⟨scratch, O, []⟩
  if 0 < apply_buf_len ego then
    let s := s.setBuf 0 0
    match preLoop ego.W I ego.is n 1 s with
    | .error e => .error e
    | .ok (i, s) =>
      if i = usub n i then
        if i < apply_buf_len ego then
          .ok ((s.note [.readI (sidx ego.is (usub i 1))]).setBuf i
            (2.0 * I (sidx ego.is (usub i 1))))
        else .error (.bufRange i)
      else .ok s
  else .error (.bufRange 0)

/-- Second part of `apply`: `cld->apply((plan *) cld, buf, buf)`. -/
def apply_cld {α : Type} (ego : P α) (s : Mem α) : Mem α :=
  { s with buf := ego.cld.apply s.buf, log := s.log ++ [.callCld] }

/-- Third part of `apply`: post-processing of the scratch array into `O`. -/
def apply_post {α : Type} [Field α] (ego : P α) (s : Mem α) : Except Fault (Mem α) :=
  let n := ego.n.val
  if 0 < apply_buf_len ego then
    let s := (s.note [.readBuf 0]).setO 0 (s.buf 0 * 0.5)
    match postLoop ego.os n ego.n.isLt 1 s with
    | .error e => .error e
    | .ok (i, s) =>
      if uadd i i = usub n 1 then
        if usub n i < apply_buf_len ego then
          .ok ((s.note [.readBuf (usub n i)]).setO (sidx ego.os (usub n 2))
            (-(s.buf (usub n i))))
        else .error (.bufRange (usub n i))
      else .ok s
  else .error (.bufRange 0)

/-- The function `apply`: pre-processing, the sub-plan in place on the scratch
array, post-processing. `scratch` is the content of the freshly allocated
array, `I` and `O` the arrays behind the two pointers. -/
def apply {α : Type} [Field α] (ego : P α) (scratch : Nat → α) (I O : Int → α) :
    Except Fault (Mem α) :=
  match apply_pre ego scratch I O with
  | .error e => .error e
  | .ok s => apply_post ego (apply_cld ego s)

/-! ## Closed forms of the loops of `apply` -/

/-- The input sample `x[j]`: the cell of `I` the source indexes with `is * j`. -/
def sample {α : Type} (I : Int → α) (is : Int) (j : Nat) : α := I (sidx is j)

/-- The value the loop stores in `buf[i]`. -/
def preFront {α : Type} [Field α] (w : Nat → α) (I : Int → α) (is : Int) (n i : Nat) : α :=
  w i * (sample I is (i - 1) + sample I is (n - i - 1))
    + 0.5 * (sample I is (i - 1) - sample I is (n - i - 1))

/-- The value the loop stores in `buf[n - i]`. -/
def preBack {α : Type} [Field α] (w : Nat → α) (I : Int → α) (is : Int) (n i : Nat) : α :=
  w i * (sample I is (i - 1) + sample I is (n - i - 1))
    - 0.5 * (sample I is (i - 1) - sample I is (n - i - 1))

/-- The scratch array after the loop entered at `i` on array `b`: the cells
`i .. n - i` outside the middle one are filled, the others are as before. -/
def preBuf {α : Type} [Field α] (w : Nat → α) (I : Int → α) (is : Int) (n i : Nat)
    (b : Nat → α) (j : Nat) : α :=
  if i ≤ j ∧ 2 * j < n then preFront w I is n j
  else if j < n ∧ i ≤ n - j ∧ n < 2 * j then preBack w I is n (n - j)
  else b j

/-- The memory after the two stores of one iteration of the loop
`for (i = 1; i + i < n - 1; ++i)`. -/
def postBody {α : Type} [Field α] (os : Int) (n i : Nat) (s : Mem α) : Mem α :=
  let s1 := (s.note [.readBuf (n - i)]).setO (sidx os (i + i - 1)) (-(s.buf (n - i)))
  (s1.note [.readO (sidx os (i + i - 2)), .readBuf i]).setO
    (sidx os (i + i)) (s1.O (sidx os (i + i - 2)) + s1.buf i)

/-- The scratch array handed to the sub-plan: `buf[0] = 0`, the cells the loop
fills, and the doubled middle sample when `n` is even. -/
def preOut {α : Type} [Field α] (w : Nat → α) (I : Int → α) (is : Int) (n : Nat)
    (scratch : Nat → α) (j : Nat) : α :=
  if 2 * j = n then 2.0 * sample I is (j - 1)
  else preBuf w I is n 1 (Function.update scratch 0 0) j

/-! ## Contracts of the collaborators, in exact real arithmetic -/

/-- Modelled from the spec: the canonical sub-transform (real to half-complex,
size `n`), which is not part of the sources. Given a real array `y` of length
`n` it produces the packed discrete Fourier transform
`Y_k = ∑ y_j exp(-2πi jk/n)`: index `k` with `2k ≤ n` holds the real part of
`Y_k` (index 0 the sum of the samples, index `n/2` the Nyquist term), index
`n - k` holds the imaginary part of `Y_k`. -/
def IsR2HC (n : ℕ) (f : (ℕ → ℝ) → (ℕ → ℝ)) : Prop :=
  ∀ (y : ℕ → ℝ) (k : ℕ), k < n →
    f y k =
      if 2 * k ≤ n then
        ∑ j in Finset.range n, y j * Real.cos (2 * Real.pi * (j : ℝ) * (k : ℝ) / (n : ℝ))
      else
        -∑ j in Finset.range n,
            y j * Real.sin (2 * Real.pi * (j : ℝ) * ((n - k : ℕ) : ℝ) / (n : ℝ))

/-- The table `awake` requests: `X(mktwiddle)(rodft00e_tw, 2n, 1, (n+1)/2)`
holds `(n+1)/2` rows of `TW_SIN` values for size `2n`, that is
`W[i] = sin(2π i / (2n)) = sin(π i / n)`. -/
def IsSineTable (n : ℕ) (w : ℕ → ℝ) : Prop :=
  ∀ i, i < (n + 1) / 2 → w i = Real.sin (Real.pi * (i : ℝ) / (n : ℝ))

/-- The table as the specification words it: `W[i] = sin(π i / (2n))`. -/
def IsSpecSineTable (n : ℕ) (w : ℕ → ℝ) : Prop :=
  ∀ i, w i = Real.sin (Real.pi * (i : ℝ) / (2 * (n : ℝ)))

/-! ## Closed forms of the access log of `apply` -/

/-- The accesses of iteration `t` of the pre-processing loop, in order. -/
def preIterLog (is : Int) (n t : Nat) : List Access :=
  [.readI (sidx is (t - 1)), .readI (sidx is (n - t - 1)), .readW t,
    .writeBuf t, .writeBuf (n - t)]

/-- The accesses of `c` iterations of the pre-processing loop from `i` on. -/
def preIters (is : Int) (n : Nat) : Nat → Nat → List Access
  | _, 0 => []
  | i, c + 1 => preIterLog is n i ++ preIters is n (i + 1) c

/-- The accesses of pre-processing for `n ≥ 1`: the store `buf[0] = 0`, the
iterations `i = 1 .. (n-1)/2`, and the middle sample when `n` is even. -/
def preLog (is : Int) (n : Nat) : List Access :=
  .writeBuf 0 :: (preIters is n 1 ((n + 1) / 2 - 1)
    ++ (if n % 2 = 0 then [.readI (sidx is (n / 2 - 1)), .writeBuf (n / 2)]
        else []))

/-- The accesses of iteration `t` of the post-processing loop, in order. -/
def postIterLog (os : Int) (n t : Nat) : List Access :=
  [.readBuf (n - t), .writeO (sidx os (t + t - 1)),
    .readO (sidx os (t + t - 2)), .readBuf t, .writeO (sidx os (t + t))]

/-- The accesses of `c` iterations of the post-processing loop from `i` on. -/
def postIters (os : Int) (n : Nat) : Nat → Nat → List Access
  | _, 0 => []
  | i, c + 1 => postIterLog os n i ++ postIters os n (i + 1) c

/-- The accesses of post-processing for `n ≥ 1`: the store to `O[0]`, the
iterations `i = 1 .. n/2 - 1`, and the last odd entry when `n ≥ 3` is odd. -/
def postLog (os : Int) (n : Nat) : List Access :=
  [.readBuf 0, .writeO 0] ++ postIters os n 1 (n / 2 - 1)
    ++ (if n % 2 = 1 ∧ 3 ≤ n then [.readBuf (n - n / 2), .writeO (sidx os (n - 2))]
        else [])

/-- Index of a read of `W`, if the access is one. -/
def Access.readWIdx : Access → Option Nat
  | .readW i => some i
  | _ => none

/-- Index of a store to the scratch array, if the access is one. -/
def Access.writeBufIdx : Access → Option Nat
  | .writeBuf i => some i
  | _ => none

/-- Index of a read or store of the scratch array, if the access is one. -/
def Access.bufIdx : Access → Option Nat
  | .readBuf i => some i
  | .writeBuf i => some i
  | _ => none

/-- The plan after a sequence of calls `awake(ego, flg)`, one per flag. -/
def awake_seq {α : Type} (mktw : List tw_instr → Nat → Nat → Nat → twid α)
    (ego : P α) (flags : List Bool) : P α :=
  flags.foldl (fun e flg => (awake mktw e flg).1) ego

/-! ## Sample inputs -/

/-- A sample problem: `RODFT00` of extent 6 with strides 2 and 3. -/
def sample_problem : problem :=
  .rdft ⟨⟨1, fun _ => ⟨⟨6, by decide⟩, 2, 3⟩⟩, ⟨0, Fin.elim0⟩, 100, 200, rdft_kind.RODFT00⟩

/-- A sample sub-plan over the rationals. -/
def sample_cld : plan ℚ := ⟨⟨1, 2, 3, 4⟩, id⟩

/-- A sample twiddle constructor over the rationals. -/
def sample_mktw : List tw_instr → Nat → Nat → Nat → twid ℚ :=
  fun _ n r m => ⟨fun i => if i = 1 then 1 / 2 else 0, n, r, m⟩

/-- A sample dormant plan of reduced size 3. -/
def sample_plan : P ℚ :=
  { ops := ⟨1, 2, 3, 4⟩, cld := sample_cld, td := none, W := none, is := 2, os := 3,
    n := ⟨3, by decide⟩ }

/-- The sample plan after `awake(ego, 1)`. -/
def sample_active : P ℚ := (awake sample_mktw sample_plan true).1

/-- A real-to-half-complex transform of size 3 over any field, given the
value `s` of `sin(2π/3)`: `cos(2π/3) = cos(4π/3) = -1/2`, `sin(4π/3) = -s`. -/
def sample_r2hc3 {α : Type} [Field α] (s : α) (y : Nat → α) : Nat → α :=
  fun k =>
    if k = 0 then y 0 + y 1 + y 2
    else if k = 1 then y 0 - (y 1 + y 2) / 2
    else s * (y 2 - y 1)

/-- An active plan of reduced size 3 with unit strides, sub-plan
`sample_r2hc3 s` and table `w`. -/
def sample_plan3 {α : Type} [Field α] (s : α) (w : Nat → α) : P α :=
  { ops := ⟨0, 0, 0, 0⟩, cld := ⟨⟨0, 0, 0, 0⟩, sample_r2hc3 s⟩, td := some ⟨w, 6, 1, 2⟩,
    W := some w, is := 1, os := 1, n := ⟨3, by decide⟩ }

/-- A sample input array: `I[0] = 1`, zero elsewhere. -/
def sample_input {α : Type} [Field α] : Int → α := fun j => if j = 0 then 1 else 0

/-- A dormant plan of reduced size 2 over the rationals. -/
def sample_dormant2 : P ℚ := { sample_plan with n := ⟨2, by decide⟩ }

/-- A plan of reduced size 1 over the rationals, with no table bound and the
identity as sub-plan (the transform of size 1 returns its one sample). -/
def sample_plan1 : P ℚ := { sample_plan with n := ⟨1, by decide⟩ }

/-- A memory over the rationals whose scratch array holds `h[j] = j + 1`. -/
def sample_mem : Mem ℚ := ⟨fun j => (j : ℚ) + 1, fun _ => 9, []⟩

/-- A sample problem: `RODFT00` of extent 0 with unit strides. -/
def sample_problem0 : problem :=
  .rdft ⟨⟨1, fun _ => ⟨⟨0, by decide⟩, 1, 1⟩⟩, ⟨0, Fin.elim0⟩, 100, 200, rdft_kind.RODFT00⟩

/-- The plan `sample_plan3 s w` with the strides `is` and `os`. -/
def sample_strided3 {α : Type} [Field α] (s : α) (w : Nat → α) (is os : Int) : P α :=
  { sample_plan3 s w with is := is, os := os }

/-- An input array holding `[1, 1]` at the offsets 0 and -1, zero elsewhere. -/
def sample_back {α : Type} [Field α] : Int → α :=
  fun j => if j = 0 then 1 else if j = -1 then 1 else 0

/-- Reading of `applicable` on a real-transform problem of rank one. -/
theorem applicable_rdft_rank_one (p : problem_rdft) (h : p.sz.rnk = 1) :
    applicable (.rdft p) =
      (p.vecsz.rnk == 0 && p.kind == rdft_kind.RODFT00
        && (p.sz.dims ⟨0, by omega⟩).n.val % 2 == 0) := by
  simp [applicable, h]

/-- Reading of `applicable` on a real-transform problem of any other rank. -/
theorem applicable_rdft_rank_ne (p : problem_rdft) (h : ¬ p.sz.rnk = 1) :
    applicable (.rdft p) = false := by
  simp [applicable, h]

/-- The rank of the size tensor of an applicable problem is one. -/
theorem applicable_rnk {p : problem_rdft} (h : applicable (.rdft p) = true) :
    p.sz.rnk = 1 := by
  by_cases h1 : p.sz.rnk = 1
  · exact h1
  · rw [applicable_rdft_rank_ne p h1] at h
    exact absurd h (by decide)

/-- C2. `applicable` is a total Boolean function, true exactly on the
real-transform problems with one size dimension, vector rank 0, kind `RODFT00`
and an even extent `sz.dims[0].n` (read only under `sz.rnk = 1`), and false on
every other problem. -/
theorem applicable_truth_table (p_ : problem) :
    (applicable p_ = true ↔
      ∃ p : problem_rdft, p_ = .rdft p ∧ ∃ h : p.sz.rnk = 1,
        p.vecsz.rnk = 0 ∧ p.kind = rdft_kind.RODFT00
          ∧ (p.sz.dims ⟨0, by omega⟩).n.val % 2 = 0)
    ∧ (applicable p_ = false ↔
      ¬ ∃ p : problem_rdft, p_ = .rdft p ∧ ∃ h : p.sz.rnk = 1,
        p.vecsz.rnk = 0 ∧ p.kind = rdft_kind.RODFT00
          ∧ (p.sz.dims ⟨0, by omega⟩).n.val % 2 = 0) := by
  have key : applicable p_ = true ↔
      ∃ p : problem_rdft, p_ = .rdft p ∧ ∃ h : p.sz.rnk = 1,
        p.vecsz.rnk = 0 ∧ p.kind = rdft_kind.RODFT00
          ∧ (p.sz.dims ⟨0, by omega⟩).n.val % 2 = 0 := by
    cases p_ with
    | other tag =>
      constructor
      · intro h
        simp [applicable] at h
      · rintro ⟨p, hp, _⟩
        cases hp
    | rdft q =>
      constructor
      · intro h
        have hr := applicable_rnk h
        rw [applicable_rdft_rank_one q hr] at h
        simp only [Bool.and_eq_true, beq_iff_eq] at h
        exact ⟨q, rfl, hr, h.1.1, h.1.2, h.2⟩
      · rintro ⟨p, hp, hr, h1, h2, h3⟩
        cases hp
        rw [applicable_rdft_rank_one q hr]
        simp only [Bool.and_eq_true, beq_iff_eq]
        exact ⟨⟨h1, h2⟩, h3⟩
  refine ⟨key, ?_⟩
  rw [← key]
  cases applicable p_ <;> simp

/-- C3. `score` is `UGLY` when `applicable` holds and `BAD` when it does not,
takes no other value, and is the same for every planner argument. -/
theorem score_consistent {Planner : Type} (p : problem) (plnr : Planner) :
    ((applicable p = true ∧ score p plnr = score_t.UGLY)
      ∨ (applicable p = false ∧ score p plnr = score_t.BAD))
    ∧ ∀ (Planner' : Type) (plnr' : Planner'), score p plnr' = score p plnr := by
  refine ⟨?_, fun _ _ => rfl⟩
  unfold score
  cases applicable p <;> simp

/-- An applicable problem is a real-transform problem of rank one. -/
theorem applicable_cases {p_ : problem} (h : applicable p_ = true) :
    ∃ (p : problem_rdft) (hr : p.sz.rnk = 1), p_ = .rdft p
      ∧ p.vecsz.rnk = 0 ∧ p.kind = rdft_kind.RODFT00
      ∧ (p.sz.dims ⟨0, by omega⟩).n.val % 2 = 0
      ∧ rdft_dim0 p_ h = (p, p.sz.dims ⟨0, by omega⟩) := by
  cases p_ with
  | other tag => simp [applicable] at h
  | rdft q =>
    have hr := applicable_rnk h
    have h2 := h
    rw [applicable_rdft_rank_one q hr] at h2
    simp only [Bool.and_eq_true, beq_iff_eq] at h2
    exact ⟨q, hr, rfl, h2.1.1, h2.1.2, h2.2, rfl⟩

/-- `mkplan` on a problem that is not applicable: no plan, no call. -/
theorem mkplan_of_not_applicable {α : Type} (plnr : problem → Option (plan α)) (buf : ptr)
    (p_ : problem) (h : applicable p_ = false) : mkplan plnr buf p_ = (none, []) := by
  unfold mkplan
  simp [h]

/-- `mkplan` on an applicable problem runs its body on `dims[0]`. -/
theorem mkplan_of_applicable {α : Type} (plnr : problem → Option (plan α)) (buf : ptr)
    (p_ : problem) (h : applicable p_ = true) :
    mkplan plnr buf p_ = mkplan_body plnr buf (rdft_dim0 p_ h).1 (rdft_dim0 p_ h).2 := by
  unfold mkplan
  simp [h]

/-- The log of `mkplan` up to the answer of the planner. -/
theorem mkplan_body_none {α : Type} (plnr : problem → Option (plan α)) (buf : ptr)
    (p : problem_rdft) (d : iodim)
    (h : plnr (mkplan_cldp p.vecsz (udiv d.n 2) buf) = none) :
    mkplan_body plnr buf p d =
      (none,
        [.fftw_malloc (udiv d.n 2).val, .mktensor_1d (udiv d.n 2).val 1 1,
          .mkproblem_rdft (mkplan_cldp p.vecsz (udiv d.n 2) buf), .tensor_destroy,
          .MKPLAN (mkplan_cldp p.vecsz (udiv d.n 2) buf),
          .problem_destroy (mkplan_cldp p.vecsz (udiv d.n 2) buf), .free_buf]) := by
  simp only [mkplan_body, h]

/-- The plan and the log of `mkplan` when the planner answers with a sub-plan. -/
theorem mkplan_body_some {α : Type} (plnr : problem → Option (plan α)) (buf : ptr)
    (p : problem_rdft) (d : iodim) (cld : plan α)
    (h : plnr (mkplan_cldp p.vecsz (udiv d.n 2) buf) = some cld) :
    mkplan_body plnr buf p d =
      (some { ops := cld.ops, cld := cld, td := none, W := none,
              is := d.is, os := d.os, n := udiv d.n 2 },
        [.fftw_malloc (udiv d.n 2).val, .mktensor_1d (udiv d.n 2).val 1 1,
          .mkproblem_rdft (mkplan_cldp p.vecsz (udiv d.n 2) buf), .tensor_destroy,
          .MKPLAN (mkplan_cldp p.vecsz (udiv d.n 2) buf),
          .problem_destroy (mkplan_cldp p.vecsz (udiv d.n 2) buf), .free_buf,
          .MKPLAN_RDFT]) := by
  simp only [mkplan_body, h, List.cons_append, List.nil_append]

/-- The planner calls in the log of the body of `mkplan`. -/
theorem mkplan_body_queries {α : Type} (plnr : problem → Option (plan α)) (buf : ptr)
    (p : problem_rdft) (d : iodim) :
    (mkplan_body plnr buf p d).2.filter Call.isMKPLAN
      = [Call.MKPLAN (mkplan_cldp p.vecsz (udiv d.n 2) buf)] := by
  cases h : plnr (mkplan_cldp p.vecsz (udiv d.n 2) buf) with
  | none => rw [mkplan_body_none plnr buf p d h]; simp [Call.isMKPLAN]
  | some cld => rw [mkplan_body_some plnr buf p d cld h]; simp [Call.isMKPLAN]

/-- The plan the body of `mkplan` returns. -/
theorem mkplan_body_plan {α : Type} (plnr : problem → Option (plan α)) (buf : ptr)
    (p : problem_rdft) (d : iodim) :
    (mkplan_body plnr buf p d).1
      = (plnr (mkplan_cldp p.vecsz (udiv d.n 2) buf)).map
          (fun cld => { ops := cld.ops, cld := cld, td := none, W := none,
                        is := d.is, os := d.os, n := udiv d.n 2 }) := by
  cases h : plnr (mkplan_cldp p.vecsz (udiv d.n 2) buf) with
  | none => rw [mkplan_body_none plnr buf p d h]; rfl
  | some cld => rw [mkplan_body_some plnr buf p d cld h]; rfl

/-- C4. `mkplan` returns no plan exactly when the problem is not applicable or
the planner has no sub-plan for the sub-problem handed to it; the planner is
consulted exactly when the problem is applicable, so not at all otherwise. -/
theorem mkplan_none_iff {α : Type} (plnr : problem → Option (plan α)) (buf : ptr)
    (p_ : problem) :
    ((mkplan plnr buf p_).1 = none ↔
      (applicable p_ = false
        ∨ ∃ cldp, (mkplan plnr buf p_).2.filter Call.isMKPLAN = [Call.MKPLAN cldp]
            ∧ plnr cldp = none))
    ∧ ((mkplan plnr buf p_).1.isSome = true ↔
      (applicable p_ = true
        ∧ ∃ cldp, (mkplan plnr buf p_).2.filter Call.isMKPLAN = [Call.MKPLAN cldp]
            ∧ (plnr cldp).isSome = true))
    ∧ (mkplan plnr buf p_).2.any Call.isMKPLAN = applicable p_
    ∧ ((mkplan plnr buf p_).2 = [] ↔ applicable p_ = false) := by
  cases h : applicable p_ with
  | false =>
    rw [mkplan_of_not_applicable plnr buf p_ h]
    simp
  | true =>
    rw [mkplan_of_applicable plnr buf p_ h]
    have hq := mkplan_body_queries plnr buf (rdft_dim0 p_ h).1 (rdft_dim0 p_ h).2
    have hlog : (mkplan_body plnr buf (rdft_dim0 p_ h).1 (rdft_dim0 p_ h).2).2 ≠ [] := by
      intro h0
      rw [h0] at hq
      simp at hq
    have hany : (mkplan_body plnr buf (rdft_dim0 p_ h).1 (rdft_dim0 p_ h).2).2.any
        Call.isMKPLAN = true := by
      rw [List.any_eq_true]
      have hm : Call.MKPLAN (mkplan_cldp (rdft_dim0 p_ h).1.vecsz
          (udiv (rdft_dim0 p_ h).2.n 2) buf) ∈
          (mkplan_body plnr buf (rdft_dim0 p_ h).1 (rdft_dim0 p_ h).2).2.filter
            Call.isMKPLAN := by
        rw [hq]; simp
      exact ⟨_, (List.mem_filter.mp hm).1, (List.mem_filter.mp hm).2⟩
    refine ⟨?_, ?_, hany, ?_⟩
    · rw [mkplan_body_queries, mkplan_body_plan]
      simp
    · rw [mkplan_body_queries, mkplan_body_plan]
      simp
    · simp [hlog]

/-- C5. On an applicable problem of extent `M`, `mkplan` hands the planner
exactly one sub-problem: one-dimensional of size `M / 2` with strides 1 and 1,
of vector rank 0, in place, of kind `R2HC`; a returned plan has `n = M / 2`,
so `2 * n = M`, and `apply` allocates `M / 2` scratch cells, the size of the
sub-problem. -/
theorem mkplan_subproblem {α : Type} (plnr : problem → Option (plan α)) (buf : ptr)
    (p_ : problem) (h : applicable p_ = true) :
    ∃ (p : problem_rdft) (hr : p.sz.rnk = 1) (c : problem_rdft),
      p_ = .rdft p
      ∧ (mkplan plnr buf p_).2.filter Call.isMKPLAN = [Call.MKPLAN (.rdft c)]
      ∧ c.sz.rnk = 1
      ∧ (∀ i, (c.sz.dims i).n.val = (p.sz.dims ⟨0, by omega⟩).n.val / 2
            ∧ (c.sz.dims i).is = 1 ∧ (c.sz.dims i).os = 1)
      ∧ c.vecsz.rnk = 0 ∧ c.I = c.O ∧ c.kind = rdft_kind.R2HC
      ∧ ∀ pln, (mkplan plnr buf p_).1 = some pln →
          pln.n.val = (p.sz.dims ⟨0, by omega⟩).n.val / 2
          ∧ 2 * pln.n.val = (p.sz.dims ⟨0, by omega⟩).n.val
          ∧ (∀ i, apply_buf_len pln = (c.sz.dims i).n.val) := by
  obtain ⟨p, hr, hp, hv, _, heven, hd⟩ := applicable_cases h
  refine ⟨p, hr, ⟨mktensor_1d (udiv (p.sz.dims ⟨0, by omega⟩).n 2) 1 1, p.vecsz, buf, buf,
    rdft_kind.R2HC⟩, hp, ?_, rfl, ?_, hv, rfl, rfl, ?_⟩
  · rw [mkplan_of_applicable plnr buf p_ h, mkplan_body_queries, hd]
    rfl
  · intro i
    exact ⟨rfl, rfl, rfl⟩
  · intro pln hpln
    rw [mkplan_of_applicable plnr buf p_ h, mkplan_body_plan, hd] at hpln
    simp only [Option.map_eq_some'] at hpln
    obtain ⟨cld, _, rfl⟩ := hpln
    refine ⟨rfl, ?_, fun _ => rfl⟩
    show 2 * ((p.sz.dims ⟨0, by omega⟩).n.val / 2) = _
    omega

/-- Instance of `mkplan_subproblem` on the sample problem. -/
theorem mkplan_subproblem_witness :
    applicable sample_problem = true ∧
    ∃ (p : problem_rdft) (hr : p.sz.rnk = 1) (c : problem_rdft),
      sample_problem = .rdft p
      ∧ (mkplan (fun _ => some sample_cld) 7 sample_problem).2.filter Call.isMKPLAN
          = [Call.MKPLAN (.rdft c)]
      ∧ c.sz.rnk = 1
      ∧ (∀ i, (c.sz.dims i).n.val = (p.sz.dims ⟨0, by omega⟩).n.val / 2
            ∧ (c.sz.dims i).is = 1 ∧ (c.sz.dims i).os = 1)
      ∧ c.vecsz.rnk = 0 ∧ c.I = c.O ∧ c.kind = rdft_kind.R2HC
      ∧ ∀ pln, (mkplan (fun _ => some sample_cld) 7 sample_problem).1 = some pln →
          pln.n.val = (p.sz.dims ⟨0, by omega⟩).n.val / 2
          ∧ 2 * pln.n.val = (p.sz.dims ⟨0, by omega⟩).n.val
          ∧ (∀ i, apply_buf_len pln = (c.sz.dims i).n.val) :=
  ⟨by decide, mkplan_subproblem (fun _ => some sample_cld) 7 sample_problem (by decide)⟩

/-- C6. A plan returned by `mkplan` is dormant (`td` and `W` unset), carries
the strides of the single dimension of the problem, wraps the sub-plan the
planner returned for the sub-problem, and has the cost estimate of that
sub-plan. -/
theorem mkplan_plan_fields {α : Type} (plnr : problem → Option (plan α)) (buf : ptr)
    (p_ : problem) (pln : P α) (h : (mkplan plnr buf p_).1 = some pln) :
    (pln.td.isNone = true ∧ pln.W.isNone = true)
    ∧ (∃ (p : problem_rdft) (hr : p.sz.rnk = 1), p_ = .rdft p
        ∧ pln.is = (p.sz.dims ⟨0, by omega⟩).is ∧ pln.os = (p.sz.dims ⟨0, by omega⟩).os)
    ∧ (∃ cldp, (mkplan plnr buf p_).2.filter Call.isMKPLAN = [Call.MKPLAN cldp]
        ∧ plnr cldp = some pln.cld)
    ∧ pln.ops = pln.cld.ops := by
  have happ : applicable p_ = true := by
    cases ha : applicable p_ with
    | true => rfl
    | false =>
      rw [mkplan_of_not_applicable plnr buf p_ ha] at h
      simp at h
  obtain ⟨p, hr, hp, _, _, _, hd⟩ := applicable_cases happ
  rw [mkplan_of_applicable plnr buf p_ happ, mkplan_body_queries]
  rw [mkplan_of_applicable plnr buf p_ happ, mkplan_body_plan, hd] at h
  simp only [Option.map_eq_some'] at h
  obtain ⟨cld, hcld, rfl⟩ := h
  refine ⟨⟨rfl, rfl⟩, ⟨p, hr, hp, rfl, rfl⟩, ⟨_, rfl, ?_⟩, rfl⟩
  rw [hd]
  exact hcld

/-- Instance of `mkplan_plan_fields`: the plan `mkplan` builds for the sample
problem. -/
theorem mkplan_plan_fields_witness :
    (mkplan (fun _ => some sample_cld) 7 sample_problem).1 = some sample_plan
    ∧ (sample_plan.td.isNone = true ∧ sample_plan.W.isNone = true)
    ∧ (∃ (p : problem_rdft) (hr : p.sz.rnk = 1), sample_problem = .rdft p
        ∧ sample_plan.is = (p.sz.dims ⟨0, by omega⟩).is
        ∧ sample_plan.os = (p.sz.dims ⟨0, by omega⟩).os)
    ∧ (∃ cldp, (mkplan (fun _ => some sample_cld) 7 sample_problem).2.filter Call.isMKPLAN
          = [Call.MKPLAN cldp]
        ∧ (fun _ => some sample_cld) cldp = some sample_plan.cld)
    ∧ sample_plan.ops = sample_plan.cld.ops :=
  ⟨rfl, mkplan_plan_fields (fun _ => some sample_cld) 7 sample_problem sample_plan rfl⟩

/-! ## Properties of the plan lifecycle -/

/-- C8. Two calls `awake(ego, 1)` in a row leave the plan exactly as one call
does, the second call makes no call to the twiddle constructor, and over both
calls a table is created once when the plan held none and never otherwise. -/
theorem awake_true_idempotent {α : Type} (mktw : List tw_instr → Nat → Nat → Nat → twid α)
    (ego : P α) :
    (awake mktw (awake mktw ego true).1 true).1 = (awake mktw ego true).1
    ∧ (awake mktw (awake mktw ego true).1 true).2.filter Call.isMktwiddle = []
    ∧ ((awake mktw ego true).2 ++ (awake mktw (awake mktw ego true).1 true).2).countP
        Call.isMktwiddle = (if ego.td.isSome then 0 else 1)
    ∧ (awake mktw (awake mktw ego true).1 true).2 = [Call.AWAKE true] := by
  cases htd : ego.td with
  | none => simp [awake, htd, Call.isMktwiddle]
  | some t => simp [awake, htd, Call.isMktwiddle]

/-- C9. `awake(ego, 0)` on a plan holding table `t` releases `t` once and
leaves `td` and `W` unset; on a plan holding none it releases nothing and
leaves the plan as it is; after `awake(ego, 1)` it restores the dormant plan. -/
theorem awake_false_releases {α : Type} (mktw : List tw_instr → Nat → Nat → Nat → twid α)
    (ego : P α) (t : twid α) (w : Option (Nat → α)) :
    awake mktw { ego with td := some t, W := w } false
        = ({ ego with td := none, W := none }, [Call.AWAKE false, Call.twiddle_destroy t])
    ∧ awake mktw { ego with td := none, W := none } false
        = ({ ego with td := none, W := none }, [Call.AWAKE false])
    ∧ (awake mktw (awake mktw ego false).1 false).2.filter Call.isTwiddleDestroy = []
    ∧ (awake mktw (awake mktw ego false).1 false).1 = (awake mktw ego false).1
    ∧ (awake mktw (awake mktw { ego with td := none, W := none } true).1 false).1
        = { ego with td := none, W := none } := by
  refine ⟨rfl, rfl, ?_, rfl, rfl⟩
  simp [awake, Call.isTwiddleDestroy]

/-- C10 as amended. `destroy` destroys the owned sub-plan and frees the plan,
whatever the state of the plan, and makes no call that releases a twiddle
table. -/
theorem destroy_calls {α : Type} (ego : P α) :
    destroy ego = [Call.plan_destroy_cld, Call.free_ego]
    ∧ (destroy ego).filter Call.isTwiddleDestroy = [] := by
  simp [destroy, Call.isTwiddleDestroy]

/-- C10 fails as stated: the sample plan is active and `awake(ego, 0)` releases
its table, yet `destroy` makes no releasing call. -/
theorem destroy_keeps_table :
    sample_active.td.isSome = true
    ∧ ((awake sample_mktw sample_active false).2.filter Call.isTwiddleDestroy).length = 1
    ∧ ((destroy sample_active).filter Call.isTwiddleDestroy).length = 0 := by
  simp [sample_active, sample_plan, awake, destroy, Call.isTwiddleDestroy]

/-! ## Machine arithmetic inside the range -/

theorem usub_of_le {a b : Nat} (h : b ≤ a) (ha : a < UINT_MOD) : usub a b = a - b := by
  unfold usub UINT_MOD at *
  omega

theorem uadd_of_lt {a b : Nat} (h : a + b < UINT_MOD) : uadd a b = a + b := by
  unfold uadd UINT_MOD at *
  omega

/-! ## The pre-processing loop -/

/-- The loop `for (i = 1; i < n - i; ++i)` stops when its test fails. -/
theorem preLoop_exit {α : Type} [Field α] (W : Option (Nat → α)) (I : Int → α) (is : Int)
    (n i : Nat) (s : Mem α) (h : ¬ i < usub n i) :
    preLoop W I is n i s = .ok (i, s) := by
  rw [preLoop]
  simp [h]

/-- An iteration of the loop with no table bound reads through the null pointer. -/
theorem preLoop_null {α : Type} [Field α] (I : Int → α) (is : Int)
    (n i : Nat) (s : Mem α) (h : i < usub n i) :
    preLoop none I is n i s = .error Fault.nullW := by
  rw [preLoop]
  simp [h]

/-- One iteration of the loop inside the range of `uint`. -/
theorem preLoop_step {α : Type} [Field α] (w : Nat → α) (I : Int → α) (is : Int)
    (n i : Nat) (s : Mem α) (hn : n < UINT_MOD) (hi : 1 ≤ i) (h : 2 * i < n) :
    preLoop (some w) I is n i s =
      preLoop (some w) I is n (i + 1)
        ((((s.note [.readI (sidx is (i - 1)),
                    .readI (sidx is (n - i - 1))]).note [.readW i]).setBuf i
            (preFront w I is n i)).setBuf (n - i) (preBack w I is n i)) := by
  have h1 : usub n i = n - i := usub_of_le (by omega) hn
  have h2 : usub i 1 = i - 1 := usub_of_le hi (by omega)
  have h3 : usub (n - i) 1 = n - i - 1 := usub_of_le (by omega) (by omega)
  have h4 : uadd i 1 = i + 1 := uadd_of_lt (by omega)
  rw [preLoop]
  simp only [h1, h2, h3, h4]
  have c1 : i < n - i := by omega
  have c2 : i < n := by omega
  have c3 : n - i < n := by omega
  simp only [c1, c2, c3, if_true, preFront, preBack, sample]

/-- The loop entered at `i` with a table bound runs to `i = (n + 1) / 2`
without fault, fills the scratch array as `preBuf` says and leaves `O` alone. -/
theorem preLoop_ok {α : Type} [Field α] (w : Nat → α) (I : Int → α) (is : Int)
    (n : Nat) (hn : n < UINT_MOD) (d : Nat) :
    ∀ (i : Nat) (s : Mem α), 1 ≤ i → 2 * i ≤ n + 1 → (n + 1) / 2 - i = d →
      ∃ s', preLoop (some w) I is n i s = .ok ((n + 1) / 2, s')
        ∧ s'.O = s.O ∧ s'.buf = preBuf w I is n i s.buf := by
  induction d with
  | zero =>
    intro i s hi h2 hd
    have hi2 : i = (n + 1) / 2 := by omega
    have hex : ¬ i < usub n i := by
      rw [usub_of_le (by omega) hn]
      omega
    refine ⟨s, ?_, rfl, ?_⟩
    · rw [preLoop_exit _ I is n i s hex, hi2]
    · funext j
      unfold preBuf
      have c1 : ¬ (i ≤ j ∧ 2 * j < n) := by omega
      have c2 : ¬ (j < n ∧ i ≤ n - j ∧ n < 2 * j) := by omega
      simp only [c1, c2, if_false]
  | succ d ih =>
    intro i s hi h2 hd
    have hlt : 2 * i < n := by omega
    rw [preLoop_step w I is n i s hn hi hlt]
    obtain ⟨s', hs', hO, hbuf⟩ := ih (i + 1)
      ((((s.note [.readI (sidx is (i - 1)),
                  .readI (sidx is (n - i - 1))]).note [.readW i]).setBuf i
          (preFront w I is n i)).setBuf (n - i) (preBack w I is n i))
      (by omega) (by omega) (by omega)
    refine ⟨s', hs', ?_, ?_⟩
    · rw [hO]; rfl
    · rw [hbuf]
      funext j
      unfold preBuf
      simp only [Mem.setBuf, Mem.note, Function.update_apply]
      split_ifs <;>
        first
        | rfl
        | (exfalso; omega)
        | (congr 1; omega)

/-! ## The post-processing loop -/

/-- The loop stops when its test fails. -/
theorem postLoop_exit {α : Type} [Field α] (os : Int) (n : Nat) (hn : n < UINT_MOD)
    (i : Nat) (s : Mem α) (h : ¬ uadd i i < usub n 1) :
    postLoop os n hn i s = .ok (i, s) := by
  rw [postLoop]
  simp [h]

/-- One iteration of the loop inside the range of `uint`. -/
theorem postLoop_step {α : Type} [Field α] (os : Int) (n : Nat) (hn : n < UINT_MOD)
    (i : Nat) (s : Mem α) (hi : 1 ≤ i) (h : 2 * i + 1 < n) :
    postLoop os n hn i s = postLoop os n hn (i + 1) (postBody os n i s) := by
  have h1 : usub n i = n - i := usub_of_le (by omega) hn
  have h2 : usub n 1 = n - 1 := usub_of_le (by omega) hn
  have h3 : uadd i i = i + i := uadd_of_lt (by omega)
  have h4 : usub (i + i) 1 = i + i - 1 := usub_of_le (by omega) (by omega)
  have h5 : usub (i + i) 2 = i + i - 2 := usub_of_le (by omega) (by omega)
  have h6 : uadd i 1 = i + 1 := uadd_of_lt (by omega)
  rw [postLoop]
  simp only [h1, h2, h3, h4, h5, h6]
  have c1 : i + i < n - 1 := by omega
  have c2 : n - i < n := by omega
  have c3 : i < n := by omega
  simp only [c1, c2, c3, if_true, postBody]

/-- The index of counter 0 is 0. -/
@[simp] theorem sidx_zero (s : Int) : sidx s 0 = 0 := by
  simp [sidx]

/-- An index product inside the range of `unsigned int` is not changed by the
wrap. -/
theorem sidx_of_fits {s : Int} {m k : Nat} (h : StrideFits s m) (hk : k < m) :
    sidx s k = s * (k : Int) := by
  unfold sidx
  exact Int.emod_eq_of_lt (h k hk).1 (h k hk).2

/-- A non-zero stride whose index products do not wrap reaches pairwise
distinct cells. -/
theorem strideInj_of_fits {s : Int} {m : Nat} (hs : s ≠ 0) (h : StrideFits s m) :
    StrideInj s m := by
  intro a ha b hb he
  rw [sidx_of_fits h ha, sidx_of_fits h hb] at he
  exact Nat.cast_injective (mul_left_cancel₀ hs he)

/-- Distinct counters have distinct indices when the stride reaches pairwise
distinct cells. -/
theorem stride_ne {os : Int} {m : Nat} (hinj : StrideInj os m) {a b : Nat} (ha : a < m)
    (hb : b < m) (h : a ≠ b) : sidx os a ≠ sidx os b := by
  intro he
  exact h (hinj a ha b hb he)

/-- When the output stride reaches pairwise distinct cells, the loop entered
at `i` runs to `max i (n / 2)` without fault, leaves the scratch array alone, stores `-buf[n - j]` at `O[os * (2j - 1)]` and the running
sum at `O[os * 2j]` for every `j` it passes, and leaves the rest of `O` alone. -/
theorem postLoop_ok {α : Type} [Field α] (os : Int) (n : Nat) (hinj : StrideInj os (n - 1))
    (hn : n < UINT_MOD) (d : Nat) :
    ∀ (i : Nat) (s : Mem α), 1 ≤ i → 2 * i ≤ n + 1 → 2 * i < UINT_MOD → n / 2 - i = d →
      ∃ s', postLoop os n hn i s = .ok (max i (n / 2), s')
        ∧ s'.buf = s.buf
        ∧ (∀ j, i ≤ j → 2 * j + 1 < n →
            s'.O (sidx os (2 * j - 1)) = -(s.buf (n - j)))
        ∧ (∀ j, i ≤ j → 2 * j + 1 < n →
            s'.O (sidx os (2 * j))
              = s.O (sidx os (2 * i - 2)) + ∑ t in Finset.Ico i (j + 1), s.buf t)
        ∧ (∀ off : Int, (∀ k : Nat, 2 * i - 1 ≤ k → k + 1 < n → off ≠ sidx os k) →
            s'.O off = s.O off) := by
  induction d with
  | zero =>
    intro i s hi h2 h3 hd
    have hex : ¬ uadd i i < usub n 1 := by
      rw [usub_of_le (by omega) hn, uadd_of_lt (by omega)]
      omega
    refine ⟨s, ?_, rfl, ?_, ?_, fun _ _ => rfl⟩
    · rw [postLoop_exit os n hn i s hex]
      congr 2
      omega
    · intro j hj hjn
      omega
    · intro j hj hjn
      omega
  | succ d ih =>
    intro i s hi h2 h3 hd
    have hlt : 2 * i + 1 < n := by omega
    rw [postLoop_step os n hn i s hi hlt]
    obtain ⟨s', hs', hbuf, hodd, heven, hframe⟩ :=
      ih (i + 1) (postBody os n i s) (by omega) (by omega) (by omega) (by omega)
    have hb : (postBody os n i s).buf = s.buf := rfl
    have e1 : (postBody os n i s).O (sidx os (2 * i - 1)) = -(s.buf (n - i)) := by
      have hne : sidx os (2 * i - 1) ≠ sidx os (i + i) :=
        stride_ne hinj (by omega) (by omega) (by omega)
      have hidx : i + i - 1 = 2 * i - 1 := by omega
      simp only [postBody, Mem.setO, Mem.note, Function.update_apply, hidx, hne, if_false,
        if_true]
    have e2 : (postBody os n i s).O (sidx os (2 * i))
        = s.O (sidx os (2 * i - 2)) + s.buf i := by
      have hne : sidx os (i + i - 2) ≠ sidx os (i + i - 1) :=
        stride_ne hinj (by omega) (by omega) (by omega)
      have hidx : i + i = 2 * i := by omega
      simp only [postBody, Mem.setO, Mem.note, Function.update_apply, hidx, hne, if_false,
        if_true]
      simp only [← hidx, hne, if_false]
    have e3 : ∀ off : Int, (∀ k : Nat, 2 * i - 1 ≤ k → k + 1 < n → off ≠ sidx os k) →
        (postBody os n i s).O off = s.O off := by
      intro off hoff
      have n1 : off ≠ sidx os (i + i - 1) := hoff _ (by omega) (by omega)
      have n2 : off ≠ sidx os (i + i) := hoff _ (by omega) (by omega)
      simp only [postBody, Mem.setO, Mem.note, Function.update_apply, n1, n2, if_false]
    have hmax : max (i + 1) (n / 2) = max i (n / 2) := by omega
    refine ⟨s', ?_, ?_, ?_, ?_, ?_⟩
    · rw [hs', hmax]
    · rw [hbuf, hb]
    · intro j hj hjn
      by_cases hji : j = i
      · subst hji
        rw [hframe _ (fun k hk1 hk2 => stride_ne hinj (by omega) (by omega) (by omega)), e1]
      · rw [hodd j (by omega) hjn, hb]
    · intro j hj hjn
      by_cases hji : j = i
      · subst hji
        rw [hframe _ (fun k hk1 hk2 => stride_ne hinj (by omega) (by omega) (by omega)), e2]
        simp
      · have hidx : 2 * (i + 1) - 2 = 2 * i := by omega
        rw [heven j (by omega) hjn, hidx, e2, hb,
          Finset.sum_eq_sum_Ico_succ_bot (show i < j + 1 by omega), add_assoc]
    · intro off hoff
      rw [hframe off (fun k hk1 hk2 => hoff k (by omega) hk2),
        e3 off hoff]

/-! ## The three parts of `apply` -/

/-- With a table bound and `n ≥ 1`, pre-processing completes, leaves `O`
alone and produces the scratch array `preOut`. -/
theorem apply_pre_ok {α : Type} [Field α] (ego : P α) (w : Nat → α) (scratch : Nat → α)
    (I O : Int → α) (hn : 1 ≤ ego.n.val) (hW : ego.W = some w) :
    ∃ s, apply_pre ego scratch I O = .ok s ∧ s.O = O
      ∧ s.buf = preOut w I ego.is ego.n.val scratch := by
  have hlt := ego.n.isLt
  obtain ⟨s', hs', hO, hbuf⟩ := preLoop_ok w I ego.is ego.n.val hlt ((ego.n.val + 1) / 2 - 1) 1
    ((⟨scratch, O, []⟩ : Mem α).setBuf 0 0) (le_refl 1) (by omega) rfl
  have hpos : 0 < apply_buf_len ego := hn
  have hsub : usub ego.n.val ((ego.n.val + 1) / 2) = ego.n.val - (ego.n.val + 1) / 2 :=
    usub_of_le (by omega) hlt
  have hsub1 : usub ((ego.n.val + 1) / 2) 1 = (ego.n.val + 1) / 2 - 1 :=
    usub_of_le (by omega) (by omega)
  unfold apply_pre
  simp only [hpos, if_true, hW, hs', hsub, hsub1]
  by_cases hmid : (ego.n.val + 1) / 2 = ego.n.val - (ego.n.val + 1) / 2
  · have hin : (ego.n.val + 1) / 2 < apply_buf_len ego := by
      unfold apply_buf_len
      omega
    rw [if_pos hmid, if_pos hin]
    refine ⟨_, rfl, ?_, ?_⟩
    · simp only [Mem.setBuf, Mem.note, hO]
    · funext j
      simp only [Mem.setBuf, Mem.note, hbuf, Function.update_apply, preOut]
      by_cases hj : 2 * j = ego.n.val
      · have hj' : j = (ego.n.val + 1) / 2 := by omega
        rw [if_pos hj', if_pos hj, hj']
        rfl
      · have hj' : ¬ j = (ego.n.val + 1) / 2 := by omega
        rw [if_neg hj', if_neg hj]
  · rw [if_neg hmid]
    refine ⟨s', rfl, ?_, ?_⟩
    · simp only [hO, Mem.setBuf]
    · funext j
      have hj : ¬ 2 * j = ego.n.val := by omega
      simp only [hbuf, preOut, hj, if_false]
      rfl

/-- With `n ≥ 1` and an output stride that reaches pairwise distinct cells,
post-processing completes; it stores `buf[0] * 0.5` at `O[0]`, `-buf[n - j]` at `O[os * (2j - 1)]` and
`buf[0] * 0.5 + buf[1] + ... + buf[j]` at `O[os * 2j]`, and leaves every other
cell of `O` alone. -/
theorem apply_post_ok {α : Type} [Field α] (ego : P α) (s : Mem α)
    (hn : 1 ≤ ego.n.val) (hinj : StrideInj ego.os (ego.n.val - 1)) :
    ∃ s', apply_post ego s = .ok s' ∧ s'.buf = s.buf
      ∧ s'.O 0 = s.buf 0 * 0.5
      ∧ (∀ j, 1 ≤ j → 2 * j + 1 ≤ ego.n.val →
          s'.O (sidx ego.os (2 * j - 1)) = -(s.buf (ego.n.val - j)))
      ∧ (∀ j, 1 ≤ j → 2 * j + 2 ≤ ego.n.val →
          s'.O (sidx ego.os (2 * j))
            = s.buf 0 * 0.5 + ∑ t in Finset.Ico 1 (j + 1), s.buf t)
      ∧ (∀ off : Int, off ≠ 0 → (∀ k : Nat, k + 2 ≤ ego.n.val → off ≠ sidx ego.os k) →
          s'.O off = s.O off) := by
  have hlt := ego.n.isLt
  have hM : 2 * 1 < UINT_MOD := by unfold UINT_MOD; omega
  obtain ⟨s1, hs1, hbuf, hodd, heven, hframe⟩ :=
    postLoop_ok ego.os ego.n.val hinj hlt (ego.n.val / 2 - 1) 1
      ((s.note [.readBuf 0]).setO 0 (s.buf 0 * 0.5)) (le_refl 1) (by omega) hM rfl
  have hpos : 0 < apply_buf_len ego := hn
  have hb0 : ((s.note [.readBuf 0]).setO 0 (s.buf 0 * 0.5)).buf = s.buf := rfl
  have hO0 : ((s.note [.readBuf 0]).setO 0 (s.buf 0 * 0.5)).O 0 = s.buf 0 * 0.5 := by
    simp [Mem.setO, Mem.note]
  have hOf : ∀ off : Int, off ≠ 0 →
      ((s.note [.readBuf 0]).setO 0 (s.buf 0 * 0.5)).O off = s.O off := by
    intro off hoff
    simp [Mem.setO, Mem.note, hoff]
  have hz : sidx ego.os (2 * 1 - 2) = 0 := by simp
  have h10 : s1.O 0 = s.buf 0 * 0.5 := by
    rw [hframe 0 (fun k hk1 hk2 => ?_), hO0]
    have := stride_ne hinj (by omega) (by omega) (show (0 : Nat) ≠ k by omega)
    simpa using this
  have hi1 : usub ego.n.val 1 = ego.n.val - 1 := usub_of_le hn hlt
  have hi2 : uadd (max 1 (ego.n.val / 2)) (max 1 (ego.n.val / 2))
      = max 1 (ego.n.val / 2) + max 1 (ego.n.val / 2) :=
    uadd_of_lt (by unfold UINT_MOD at *; omega)
  have hi3 : usub ego.n.val (max 1 (ego.n.val / 2)) = ego.n.val - max 1 (ego.n.val / 2) :=
    usub_of_le (by omega) hlt
  unfold apply_post
  simp only [hpos, if_true, hs1, hi1, hi2, hi3]
  by_cases hodd_n : max 1 (ego.n.val / 2) + max 1 (ego.n.val / 2) = ego.n.val - 1
  · have hin : ego.n.val - max 1 (ego.n.val / 2) < apply_buf_len ego := by
      unfold apply_buf_len
      omega
    have hn2 : usub ego.n.val 2 = ego.n.val - 2 := usub_of_le (by omega) hlt
    have hmx : max 1 (ego.n.val / 2) = ego.n.val / 2 := by omega
    rw [if_pos hodd_n, if_pos hin, hn2, hmx]
    refine ⟨_, rfl, ?_, ?_, ?_, ?_, ?_⟩
    · simp only [Mem.setO, Mem.note, hbuf, hb0]
    · have hne : (0 : Int) ≠ sidx ego.os (ego.n.val - 2) := by
        have := stride_ne hinj (by omega) (by omega) (show (0 : Nat) ≠ ego.n.val - 2 by omega)
        simpa using this
      simp only [Mem.setO, Mem.note, Function.update_apply, hne, if_false, h10]
    · intro j hj hjn
      by_cases hlast : 2 * j + 1 = ego.n.val
      · have e1 : 2 * j - 1 = ego.n.val - 2 := by omega
        have e2 : ego.n.val / 2 = j := by omega
        simp only [Mem.setO, Mem.note, Function.update_apply, e1, e2, if_true, hbuf, hb0]
      · have hne : sidx ego.os (2 * j - 1) ≠ sidx ego.os (ego.n.val - 2) :=
          stride_ne hinj (by omega) (by omega) (by omega)
        simp only [Mem.setO, Mem.note, Function.update_apply, hne, if_false]
        rw [hodd j hj (by omega), hb0]
    · intro j hj hjn
      have hne : sidx ego.os (2 * j) ≠ sidx ego.os (ego.n.val - 2) :=
        stride_ne hinj (by omega) (by omega) (by omega)
      simp only [Mem.setO, Mem.note, Function.update_apply, hne, if_false]
      rw [heven j hj (by omega), hz, hO0, hb0]
    · intro off hoff hk
      have hne : off ≠ sidx ego.os (ego.n.val - 2) := hk _ (by omega)
      simp only [Mem.setO, Mem.note, Function.update_apply, hne, if_false]
      rw [hframe off (fun k hk1 hk2 => hk k (by omega)), hOf off hoff]
  · rw [if_neg hodd_n]
    refine ⟨s1, rfl, ?_, h10, ?_, ?_, ?_⟩
    · rw [hbuf, hb0]
    · intro j hj hjn
      rw [hodd j hj (by omega), hb0]
    · intro j hj hjn
      rw [heven j hj (by omega), hz, hO0, hb0]
    · intro off hoff hk
      rw [hframe off (fun k hk1 hk2 => hk k (by omega)), hOf off hoff]

open Finset

/-! ## Sums over mirrored indices -/

/-- Mirroring the index of a sum whose weight changes sign under the mirror. -/
theorem sum_mirror_neg (m : ℕ) (g φ : ℕ → ℝ)
    (hφ : ∀ t, t < m → φ (m - 1 - t) = -φ t) :
    ∑ t in range m, g (m - 1 - t) * φ t = -∑ t in range m, g t * φ t := by
  have h := sum_range_reflect (fun t => g (m - 1 - t) * φ t) m
  rw [← h, ← sum_neg_distrib]
  refine sum_congr rfl (fun t ht => ?_)
  have htm : t < m := mem_range.mp ht
  have hidx : m - 1 - (m - 1 - t) = t := by omega
  simp only [hidx, hφ t htm]
  ring

/-- Mirroring the index of a sum whose weight is unchanged under the mirror. -/
theorem sum_mirror_pos (m : ℕ) (g φ : ℕ → ℝ)
    (hφ : ∀ t, t < m → φ (m - 1 - t) = φ t) :
    ∑ t in range m, g (m - 1 - t) * φ t = ∑ t in range m, g t * φ t := by
  have h := sum_range_reflect (fun t => g (m - 1 - t) * φ t) m
  rw [← h]
  refine sum_congr rfl (fun t ht => ?_)
  have htm : t < m := mem_range.mp ht
  have hidx : m - 1 - (m - 1 - t) = t := by omega
  simp only [hidx, hφ t htm]

/-- The paired and rotated samples against an odd weight: only the samples
themselves remain. -/
theorem sum_pair_odd (m : ℕ) (a s φ : ℕ → ℝ)
    (hs : ∀ t, t < m → s (m - 1 - t) = s t)
    (hφ : ∀ t, t < m → φ (m - 1 - t) = -φ t) :
    ∑ t in range m, (s t * (a t + a (m - 1 - t)) + 1 / 2 * (a t - a (m - 1 - t))) * φ t
      = ∑ t in range m, a t * φ t := by
  have r1 := sum_mirror_neg m (fun t => s t * a t) φ hφ
  have r2 := sum_mirror_neg m a φ hφ
  have r1' : ∑ t in range m, s t * a (m - 1 - t) * φ t
      = -∑ t in range m, s t * a t * φ t := by
    rw [← r1]
    refine sum_congr rfl (fun t ht => ?_)
    simp only [hs t (mem_range.mp ht)]
  have split : ∑ t in range m,
        (s t * (a t + a (m - 1 - t)) + 1 / 2 * (a t - a (m - 1 - t))) * φ t
      = ∑ t in range m, s t * a t * φ t + ∑ t in range m, s t * a (m - 1 - t) * φ t
        + 1 / 2 * ∑ t in range m, a t * φ t
        - 1 / 2 * ∑ t in range m, a (m - 1 - t) * φ t := by
    rw [mul_sum, mul_sum, ← sum_add_distrib, ← sum_add_distrib, ← sum_sub_distrib]
    refine sum_congr rfl (fun t _ => ?_)
    ring
  rw [split, r1', r2]
  ring

/-- The paired and rotated samples against an even weight: twice the rotated
samples remain. -/
theorem sum_pair_even (m : ℕ) (a s φ : ℕ → ℝ)
    (hs : ∀ t, t < m → s (m - 1 - t) = s t)
    (hφ : ∀ t, t < m → φ (m - 1 - t) = φ t) :
    ∑ t in range m, (s t * (a t + a (m - 1 - t)) + 1 / 2 * (a t - a (m - 1 - t))) * φ t
      = 2 * ∑ t in range m, s t * a t * φ t := by
  have r1 := sum_mirror_pos m (fun t => s t * a t) φ hφ
  have r2 := sum_mirror_pos m a φ hφ
  have r1' : ∑ t in range m, s t * a (m - 1 - t) * φ t
      = ∑ t in range m, s t * a t * φ t := by
    rw [← r1]
    refine sum_congr rfl (fun t ht => ?_)
    simp only [hs t (mem_range.mp ht)]
  have split : ∑ t in range m,
        (s t * (a t + a (m - 1 - t)) + 1 / 2 * (a t - a (m - 1 - t))) * φ t
      = ∑ t in range m, s t * a t * φ t + ∑ t in range m, s t * a (m - 1 - t) * φ t
        + 1 / 2 * ∑ t in range m, a t * φ t
        - 1 / 2 * ∑ t in range m, a (m - 1 - t) * φ t := by
    rw [mul_sum, mul_sum, ← sum_add_distrib, ← sum_add_distrib, ← sum_sub_distrib]
    refine sum_congr rfl (fun t _ => ?_)
    ring
  rw [split, r1', r2]
  ring

/-! ## Angles -/

/-- The angle of sample `t` mirrored is the supplement of the angle of `t`. -/
theorem angle_mirror (n t : ℕ) (ht : t < n - 1) :
    Real.pi * (((n - 1 - 1 - t : ℕ) : ℝ) + 1) / (n : ℝ)
      = Real.pi - Real.pi * ((t : ℝ) + 1) / (n : ℝ) := by
  have hn : (n : ℝ) ≠ 0 := by
    have : n ≠ 0 := by omega
    exact_mod_cast this
  have hc : ((n - 1 - 1 - t : ℕ) : ℝ) = (n : ℝ) - 1 - 1 - (t : ℝ) := by
    have h1 : n - 1 - 1 - t + (t + 2) = n := by omega
    have h2 : ((n - 1 - 1 - t : ℕ) : ℝ) + ((t : ℝ) + 2) = (n : ℝ) := by exact_mod_cast h1
    linarith
  rw [hc]
  field_simp
  ring

/-- Product of the rotation sine and a cosine as a difference of sines. -/
theorem rotate_cos (θ k : ℝ) :
    2 * (Real.sin θ * Real.cos (2 * k * θ))
      = Real.sin ((2 * k + 1) * θ) - Real.sin ((2 * k - 1) * θ) := by
  have e1 : (2 * k + 1) * θ = 2 * k * θ + θ := by ring
  have e2 : (2 * k - 1) * θ = 2 * k * θ - θ := by ring
  rw [e1, e2, Real.sin_add, Real.sin_sub]
  ring

/-! ## The half-complex spectrum of the pre-processed samples -/

/-- The sine sums of the pre-processed samples `y` are sine sums of the
input `x` at twice the frequency. -/
theorem spectrum_sin (n : ℕ) (hn : 1 ≤ n) (x y : ℕ → ℝ) (hy0 : y 0 = 0)
    (hy : ∀ t, t < n - 1 → y (t + 1)
      = Real.sin (Real.pi * ((t : ℝ) + 1) / (n : ℝ)) * (x t + x (n - 1 - 1 - t))
        + 1 / 2 * (x t - x (n - 1 - 1 - t)))
    (i : ℕ) :
    ∑ j in range n, y j * Real.sin (2 * Real.pi * (j : ℝ) * (i : ℝ) / (n : ℝ))
      = ∑ t in range (n - 1),
          x t * Real.sin (Real.pi * ((t : ℝ) + 1) * (2 * (i : ℝ)) / (n : ℝ)) := by
  have hs : ∀ t, t < n - 1 →
      Real.sin (Real.pi * (((n - 1 - 1 - t : ℕ) : ℝ) + 1) / (n : ℝ))
        = Real.sin (Real.pi * ((t : ℝ) + 1) / (n : ℝ)) := by
    intro t ht
    rw [angle_mirror n t ht, Real.sin_pi_sub]
  have hφ : ∀ t, t < n - 1 →
      Real.sin (2 * (i : ℝ) * (Real.pi * (((n - 1 - 1 - t : ℕ) : ℝ) + 1) / (n : ℝ)))
        = -Real.sin (2 * (i : ℝ) * (Real.pi * ((t : ℝ) + 1) / (n : ℝ))) := by
    intro t ht
    rw [angle_mirror n t ht]
    have e : 2 * (i : ℝ) * (Real.pi - Real.pi * ((t : ℝ) + 1) / (n : ℝ))
        = (i : ℝ) * (2 * Real.pi) - 2 * (i : ℝ) * (Real.pi * ((t : ℝ) + 1) / (n : ℝ)) := by
      ring
    rw [e, Real.sin_nat_mul_two_pi_sub]
  have key := sum_pair_odd (n - 1) x
    (fun t : ℕ => Real.sin (Real.pi * ((t : ℝ) + 1) / (n : ℝ)))
    (fun t : ℕ => Real.sin (2 * (i : ℝ) * (Real.pi * ((t : ℝ) + 1) / (n : ℝ)))) hs hφ
  obtain ⟨m, rfl⟩ : ∃ m, n = m + 1 := ⟨n - 1, by omega⟩
  simp only [Nat.add_sub_cancel] at key hy ⊢
  calc ∑ j in range (m + 1), y j * Real.sin (2 * Real.pi * (j : ℝ) * (i : ℝ) / ((m + 1 : ℕ) : ℝ))
      = ∑ t in range m, y (t + 1)
          * Real.sin (2 * Real.pi * ((t + 1 : ℕ) : ℝ) * (i : ℝ) / ((m + 1 : ℕ) : ℝ)) := by
        rw [sum_range_succ', hy0, zero_mul, add_zero]
    _ = ∑ t in range m,
          (Real.sin (Real.pi * ((t : ℝ) + 1) / ((m + 1 : ℕ) : ℝ)) * (x t + x (m - 1 - t))
            + 1 / 2 * (x t - x (m - 1 - t)))
          * Real.sin (2 * (i : ℝ) * (Real.pi * ((t : ℝ) + 1) / ((m + 1 : ℕ) : ℝ))) := by
        refine sum_congr rfl (fun t ht => ?_)
        rw [hy t (mem_range.mp ht)]
        congr 2
        push_cast
        ring
    _ = ∑ t in range m,
          x t * Real.sin (2 * (i : ℝ) * (Real.pi * ((t : ℝ) + 1) / ((m + 1 : ℕ) : ℝ))) := key
    _ = ∑ t in range m,
          x t * Real.sin (Real.pi * ((t : ℝ) + 1) * (2 * (i : ℝ)) / ((m + 1 : ℕ) : ℝ)) := by
        refine sum_congr rfl (fun t _ => ?_)
        congr 2
        ring

/-- The cosine sums of the pre-processed samples `y` are differences of
neighbouring odd-numbered sine sums of the input `x`. -/
theorem spectrum_cos (n : ℕ) (hn : 1 ≤ n) (x y : ℕ → ℝ) (hy0 : y 0 = 0)
    (hy : ∀ t, t < n - 1 → y (t + 1)
      = Real.sin (Real.pi * ((t : ℝ) + 1) / (n : ℝ)) * (x t + x (n - 1 - 1 - t))
        + 1 / 2 * (x t - x (n - 1 - 1 - t)))
    (k : ℕ) :
    ∑ j in range n, y j * Real.cos (2 * Real.pi * (j : ℝ) * (k : ℝ) / (n : ℝ))
      = ∑ t in range (n - 1),
            x t * Real.sin (Real.pi * ((t : ℝ) + 1) * (2 * (k : ℝ) + 1) / (n : ℝ))
        - ∑ t in range (n - 1),
            x t * Real.sin (Real.pi * ((t : ℝ) + 1) * (2 * (k : ℝ) - 1) / (n : ℝ)) := by
  have hs : ∀ t, t < n - 1 →
      Real.sin (Real.pi * (((n - 1 - 1 - t : ℕ) : ℝ) + 1) / (n : ℝ))
        = Real.sin (Real.pi * ((t : ℝ) + 1) / (n : ℝ)) := by
    intro t ht
    rw [angle_mirror n t ht, Real.sin_pi_sub]
  have hφ : ∀ t, t < n - 1 →
      Real.cos (2 * (k : ℝ) * (Real.pi * (((n - 1 - 1 - t : ℕ) : ℝ) + 1) / (n : ℝ)))
        = Real.cos (2 * (k : ℝ) * (Real.pi * ((t : ℝ) + 1) / (n : ℝ))) := by
    intro t ht
    rw [angle_mirror n t ht]
    have e : 2 * (k : ℝ) * (Real.pi - Real.pi * ((t : ℝ) + 1) / (n : ℝ))
        = (k : ℝ) * (2 * Real.pi) - 2 * (k : ℝ) * (Real.pi * ((t : ℝ) + 1) / (n : ℝ)) := by
      ring
    rw [e, Real.cos_nat_mul_two_pi_sub]
  have key := sum_pair_even (n - 1) x
    (fun t : ℕ => Real.sin (Real.pi * ((t : ℝ) + 1) / (n : ℝ)))
    (fun t : ℕ => Real.cos (2 * (k : ℝ) * (Real.pi * ((t : ℝ) + 1) / (n : ℝ)))) hs hφ
  obtain ⟨m, rfl⟩ : ∃ m, n = m + 1 := ⟨n - 1, by omega⟩
  simp only [Nat.add_sub_cancel] at key hy ⊢
  calc ∑ j in range (m + 1), y j * Real.cos (2 * Real.pi * (j : ℝ) * (k : ℝ) / ((m + 1 : ℕ) : ℝ))
      = ∑ t in range m, y (t + 1)
          * Real.cos (2 * Real.pi * ((t + 1 : ℕ) : ℝ) * (k : ℝ) / ((m + 1 : ℕ) : ℝ)) := by
        rw [sum_range_succ', hy0, zero_mul, add_zero]
    _ = ∑ t in range m,
          (Real.sin (Real.pi * ((t : ℝ) + 1) / ((m + 1 : ℕ) : ℝ)) * (x t + x (m - 1 - t))
            + 1 / 2 * (x t - x (m - 1 - t)))
          * Real.cos (2 * (k : ℝ) * (Real.pi * ((t : ℝ) + 1) / ((m + 1 : ℕ) : ℝ))) := by
        refine sum_congr rfl (fun t ht => ?_)
        rw [hy t (mem_range.mp ht)]
        congr 2
        push_cast
        ring
    _ = 2 * ∑ t in range m,
          Real.sin (Real.pi * ((t : ℝ) + 1) / ((m + 1 : ℕ) : ℝ)) * x t
            * Real.cos (2 * (k : ℝ) * (Real.pi * ((t : ℝ) + 1) / ((m + 1 : ℕ) : ℝ))) := key
    _ = ∑ t in range m,
            x t * Real.sin (Real.pi * ((t : ℝ) + 1) * (2 * (k : ℝ) + 1) / ((m + 1 : ℕ) : ℝ))
        - ∑ t in range m,
            x t * Real.sin (Real.pi * ((t : ℝ) + 1) * (2 * (k : ℝ) - 1) / ((m + 1 : ℕ) : ℝ)) := by
        rw [mul_sum, ← sum_sub_distrib]
        refine sum_congr rfl (fun t _ => ?_)
        have r := rotate_cos (Real.pi * ((t : ℝ) + 1) / ((m + 1 : ℕ) : ℝ)) (k : ℝ)
        have e1 : Real.pi * ((t : ℝ) + 1) * (2 * (k : ℝ) + 1) / ((m + 1 : ℕ) : ℝ)
            = (2 * (k : ℝ) + 1) * (Real.pi * ((t : ℝ) + 1) / ((m + 1 : ℕ) : ℝ)) := by ring
        have e2 : Real.pi * ((t : ℝ) + 1) * (2 * (k : ℝ) - 1) / ((m + 1 : ℕ) : ℝ)
            = (2 * (k : ℝ) - 1) * (Real.pi * ((t : ℝ) + 1) / ((m + 1 : ℕ) : ℝ)) := by ring
        rw [e1, e2, ← mul_sub, ← r]
        ring

/-- The running sum of the cosine part telescopes. -/
theorem running_sum_telescope (F h : ℕ → ℝ) (N : ℕ) (h0 : h 0 = 2 * F 0)
    (hk : ∀ k, 1 ≤ k → k ≤ N → h k = F k - F (k - 1)) (i : ℕ) (hi : i ≤ N) :
    h 0 * (1 / 2) + ∑ k in Finset.Ico 1 (i + 1), h k = F i := by
  induction i with
  | zero =>
    simp only [zero_add, Finset.Ico_self, Finset.sum_empty, add_zero, h0]
    ring
  | succ i ih =>
    rw [Finset.sum_Ico_succ_top (by omega), ← add_assoc, ih (by omega),
      hk (i + 1) (by omega) hi]
    simp

/-! ## The transform `apply` computes -/

/-- Under the table `awake` requests, the scratch array handed to the
sub-plan holds 0 and the paired, rotated samples. -/
theorem preOut_rotated (w : ℕ → ℝ) (I : Int → ℝ) (is : Int) (n : ℕ) (scratch : ℕ → ℝ)
    (hn : 1 ≤ n) (hw : IsSineTable n w) :
    preOut w I is n scratch 0 = 0
    ∧ ∀ t, t < n - 1 → preOut w I is n scratch (t + 1)
        = Real.sin (Real.pi * ((t : ℝ) + 1) / (n : ℝ))
            * (sample I is t + sample I is (n - 1 - 1 - t))
          + 1 / 2 * (sample I is t - sample I is (n - 1 - 1 - t)) := by
  have hnR : (n : ℝ) ≠ 0 := by
    have : n ≠ 0 := by omega
    exact_mod_cast this
  constructor
  · unfold preOut preBuf
    have c0 : ¬ 2 * 0 = n := by omega
    have c1 : ¬ (1 ≤ 0 ∧ 2 * 0 < n) := by omega
    have c2 : ¬ (0 < n ∧ 1 ≤ n - 0 ∧ n < 2 * 0) := by omega
    rw [if_neg c0, if_neg c1, if_neg c2]
    simp
  · intro t ht
    unfold preOut
    by_cases hmid : 2 * (t + 1) = n
    · rw [if_pos hmid]
      have e1 : n - 1 - 1 - t = t := by omega
      have e2 : Real.pi * ((t : ℝ) + 1) / (n : ℝ) = Real.pi / 2 := by
        have : (n : ℝ) = 2 * ((t : ℝ) + 1) := by exact_mod_cast hmid.symm
        rw [this]
        field_simp
        ring
      rw [e1, e2, Real.sin_pi_div_two, Nat.add_sub_cancel]
      norm_num
      ring
    · rw [if_neg hmid]
      unfold preBuf
      by_cases hfront : 2 * (t + 1) < n
      · have c1 : 1 ≤ t + 1 ∧ 2 * (t + 1) < n := by omega
        rw [if_pos c1]
        unfold preFront
        have e1 : n - (t + 1) - 1 = n - 1 - 1 - t := by omega
        rw [hw (t + 1) (by omega), Nat.add_sub_cancel, e1]
        push_cast
        norm_num
      · have c1 : ¬ (1 ≤ t + 1 ∧ 2 * (t + 1) < n) := by omega
        have c2 : t + 1 < n ∧ 1 ≤ n - (t + 1) ∧ n < 2 * (t + 1) := by omega
        rw [if_neg c1, if_pos c2]
        unfold preBack
        have e1 : n - (t + 1) - 1 = n - 1 - 1 - t := by omega
        have e2 : n - (n - (t + 1)) - 1 = t := by omega
        have e3 : Real.sin (Real.pi * ((n - (t + 1) : ℕ) : ℝ) / (n : ℝ))
            = Real.sin (Real.pi * ((t : ℝ) + 1) / (n : ℝ)) := by
          have hc : ((n - (t + 1) : ℕ) : ℝ) = (n : ℝ) - ((t : ℝ) + 1) := by
            rw [Nat.cast_sub (by omega)]
            push_cast
            ring
          have : Real.pi * ((n - (t + 1) : ℕ) : ℝ) / (n : ℝ)
              = Real.pi - Real.pi * ((t : ℝ) + 1) / (n : ℝ) := by
            rw [hc]
            field_simp
            ring
          rw [this, Real.sin_pi_sub]
        rw [hw (n - (t + 1)) (by omega), e1, e2, e3]
        norm_num
        ring

/-- With a table bound, `apply` is post-processing of the sub-plan's result on
the scratch array `preOut`. -/
theorem apply_eq_post {α : Type} [Field α] (ego : P α) (w : Nat → α) (scratch : Nat → α)
    (I O : Int → α) (hn : 1 ≤ ego.n.val) (hW : ego.W = some w) :
    ∃ s, apply_pre ego scratch I O = .ok s ∧ s.O = O
      ∧ (apply_cld ego s).buf = ego.cld.apply (preOut w I ego.is ego.n.val scratch)
      ∧ apply ego scratch I O = apply_post ego (apply_cld ego s) := by
  obtain ⟨s, hs, hO, hbuf⟩ := apply_pre_ok ego w scratch I O hn hW
  refine ⟨s, hs, hO, ?_, ?_⟩
  · simp only [apply_cld, hbuf]
  · unfold apply
    rw [hs]

/-- The sine transform on the cells the source indexes: when the output
stride reaches pairwise distinct cells, the table is the sine table of `apply`
and the sub-plan is exact, the cell of index `os * k` holds
`∑ x[j] sin(π (j+1) (k+1) / n)`, where `x[j]` is the cell of index `is * j`. -/
theorem apply_dst_core (ego : P ℝ) (w : ℕ → ℝ) (scratch : ℕ → ℝ) (I O : Int → ℝ)
    (hn : 1 ≤ ego.n.val) (hinj : StrideInj ego.os (ego.n.val - 1)) (hW : ego.W = some w)
    (hw : IsSineTable ego.n.val w) (hcld : IsR2HC ego.n.val ego.cld.apply) :
    ∃ s, apply ego scratch I O = .ok s
      ∧ ∀ k, k + 2 ≤ ego.n.val →
          s.O (sidx ego.os k)
            = ∑ j in range (ego.n.val - 1),
                I (sidx ego.is j)
                  * Real.sin (Real.pi * ((j : ℝ) + 1) * ((k : ℝ) + 1) / (ego.n.val : ℝ)) := by
  obtain ⟨s1, _, _, hb1, happ⟩ := apply_eq_post ego w scratch I O hn hW
  obtain ⟨s2, hs2, _, h0, hodd, heven, _⟩ := apply_post_ok ego (apply_cld ego s1) hn hinj
  obtain ⟨hy0, hy⟩ := preOut_rotated w I ego.is ego.n.val scratch hn hw
  have hhalf : (0.5 : ℝ) = 1 / 2 := by norm_num
  rw [hb1] at h0 hodd heven
  -- the odd-frequency sums
  have hcos : ∀ k, 2 * k ≤ ego.n.val → k < ego.n.val →
      ego.cld.apply (preOut w I ego.is ego.n.val scratch) k
        = ∑ t in range (ego.n.val - 1), sample I ego.is t
              * Real.sin (Real.pi * ((t : ℝ) + 1) * (2 * (k : ℝ) + 1) / (ego.n.val : ℝ))
          - ∑ t in range (ego.n.val - 1), sample I ego.is t
              * Real.sin (Real.pi * ((t : ℝ) + 1) * (2 * (k : ℝ) - 1) / (ego.n.val : ℝ)) := by
    intro k hk hkn
    rw [hcld _ k hkn, if_pos hk]
    exact spectrum_cos ego.n.val hn (sample I ego.is) _ hy0 hy k
  have htel : ∀ i, 2 * i + 2 ≤ ego.n.val →
      ego.cld.apply (preOut w I ego.is ego.n.val scratch) 0 * (1 / 2)
        + ∑ t in Finset.Ico 1 (i + 1), ego.cld.apply (preOut w I ego.is ego.n.val scratch) t
      = ∑ t in range (ego.n.val - 1), sample I ego.is t
          * Real.sin (Real.pi * ((t : ℝ) + 1) * (2 * (i : ℝ) + 1) / (ego.n.val : ℝ)) := by
    intro i hi
    refine running_sum_telescope
      (fun k => ∑ t in range (ego.n.val - 1), sample I ego.is t
          * Real.sin (Real.pi * ((t : ℝ) + 1) * (2 * (k : ℝ) + 1) / (ego.n.val : ℝ)))
      _ i ?_ ?_ i (le_refl i)
    · rw [hcos 0 (by omega) (by omega)]
      have hneg : ∑ t in range (ego.n.val - 1), sample I ego.is t
            * Real.sin (Real.pi * ((t : ℝ) + 1) * (2 * ((0 : ℕ) : ℝ) - 1) / (ego.n.val : ℝ))
          = -∑ t in range (ego.n.val - 1), sample I ego.is t
            * Real.sin (Real.pi * ((t : ℝ) + 1) * (2 * ((0 : ℕ) : ℝ) + 1) / (ego.n.val : ℝ)) := by
        rw [← sum_neg_distrib]
        refine sum_congr rfl (fun t _ => ?_)
        have e : Real.pi * ((t : ℝ) + 1) * (2 * ((0 : ℕ) : ℝ) - 1) / (ego.n.val : ℝ)
            = -(Real.pi * ((t : ℝ) + 1) * (2 * ((0 : ℕ) : ℝ) + 1) / (ego.n.val : ℝ)) := by
          push_cast
          ring
        rw [e, Real.sin_neg]
        ring
      rw [hneg]
      ring
    · intro k hk1 hki
      rw [hcos k (by omega) (by omega)]
      have e : (2 * ((k - 1 : ℕ) : ℝ) + 1) = 2 * (k : ℝ) - 1 := by
        rw [Nat.cast_sub hk1]
        push_cast
        ring
      simp only [e]
  refine ⟨s2, by rw [happ, hs2], ?_⟩
  intro k hk
  obtain ⟨i, hi | hi⟩ := Nat.even_or_odd' k
  · -- `k = 2 i`
    subst hi
    have hcast : (((2 * i : ℕ) : ℝ) + 1) = 2 * (i : ℝ) + 1 := by push_cast; ring
    by_cases hi0 : i = 0
    · subst hi0
      have := htel 0 (by omega)
      simp only [Nat.mul_zero, Nat.cast_zero, mul_zero, zero_add, Finset.Ico_self,
        Finset.sum_empty, add_zero, sidx_zero] at this ⊢
      rw [h0, hhalf, this]
      rfl
    · rw [heven i (by omega) (by omega), hhalf, htel i (by omega)]
      simp only [hcast]
      rfl
  · -- `k = 2 i + 1`
    subst hi
    have hidx : 2 * (i + 1) - 1 = 2 * i + 1 := by omega
    have hkn : ego.n.val - (i + 1) < ego.n.val := by omega
    have hnot : ¬ 2 * (ego.n.val - (i + 1)) ≤ ego.n.val := by omega
    have hback : ego.n.val - (ego.n.val - (i + 1)) = i + 1 := by omega
    have h := hodd (i + 1) (by omega) (by omega)
    rw [hidx] at h
    rw [h, hcld _ _ hkn, if_neg hnot, neg_neg, hback,
      spectrum_sin ego.n.val hn (sample I ego.is) _ hy0 hy (i + 1)]
    refine sum_congr rfl (fun t _ => ?_)
    simp only [sample]
    congr 2
    push_cast
    ring

/-- The sine transform at strides whose index products do not wrap: the
cells are `O[os * k]` and `I[is * j]` themselves. -/
theorem apply_dst_fits (ego : P ℝ) (w : ℕ → ℝ) (scratch : ℕ → ℝ) (I O : Int → ℝ)
    (hn : 1 ≤ ego.n.val) (hos : ego.os ≠ 0)
    (hfi : StrideFits ego.is (ego.n.val - 1)) (hfo : StrideFits ego.os (ego.n.val - 1))
    (hW : ego.W = some w) (hw : IsSineTable ego.n.val w)
    (hcld : IsR2HC ego.n.val ego.cld.apply) :
    ∃ s, apply ego scratch I O = .ok s
      ∧ ∀ k, k + 2 ≤ ego.n.val →
          s.O (ego.os * (k : Int))
            = ∑ j in range (ego.n.val - 1),
                I (ego.is * (j : Int))
                  * Real.sin (Real.pi * ((j : ℝ) + 1) * ((k : ℝ) + 1) / (ego.n.val : ℝ)) := by
  obtain ⟨s, hs, hk⟩ := apply_dst_core ego w scratch I O hn (strideInj_of_fits hos hfo) hW hw hcld
  refine ⟨s, hs, fun k hkn => ?_⟩
  rw [← sidx_of_fits hfo (show k < ego.n.val - 1 by omega), hk k hkn]
  refine sum_congr rfl (fun j hj => ?_)
  rw [sidx_of_fits hfi (mem_range.mp hj)]

/-! ## A sub-plan of size 3 -/

theorem cos_two_thirds_pi : Real.cos (2 * Real.pi / 3) = -(1 / 2) := by
  have e : 2 * Real.pi / 3 = Real.pi - Real.pi / 3 := by ring
  rw [e, Real.cos_pi_sub, Real.cos_pi_div_three]

theorem cos_four_thirds_pi : Real.cos (4 * Real.pi / 3) = -(1 / 2) := by
  have e : 4 * Real.pi / 3 = Real.pi / 3 + Real.pi := by ring
  rw [e, Real.cos_add_pi, Real.cos_pi_div_three]

theorem sin_two_thirds_pi : Real.sin (2 * Real.pi / 3) = Real.sqrt 3 / 2 := by
  have e : 2 * Real.pi / 3 = Real.pi - Real.pi / 3 := by ring
  rw [e, Real.sin_pi_sub, Real.sin_pi_div_three]

theorem sin_four_thirds_pi : Real.sin (4 * Real.pi / 3) = -(Real.sqrt 3 / 2) := by
  have e : 4 * Real.pi / 3 = Real.pi / 3 + Real.pi := by ring
  rw [e, Real.sin_add_pi, Real.sin_pi_div_three]

/-- The sample sub-plan of size 3 meets the contract of the sub-transform. -/
theorem sample_r2hc3_spec : IsR2HC 3 (sample_r2hc3 (Real.sqrt 3 / 2)) := by
  intro y k hk
  have e2 : 2 * Real.pi * ((1 : ℕ) : ℝ) * ((1 : ℕ) : ℝ) / ((3 : ℕ) : ℝ) = 2 * Real.pi / 3 := by
    push_cast; ring
  have e4 : 2 * Real.pi * ((2 : ℕ) : ℝ) * ((1 : ℕ) : ℝ) / ((3 : ℕ) : ℝ) = 4 * Real.pi / 3 := by
    push_cast; ring
  interval_cases k
  · simp [sample_r2hc3, sum_range_succ]
  · simp only [sample_r2hc3, sum_range_succ, sum_range_zero, e2, e4, cos_two_thirds_pi,
      cos_four_thirds_pi]
    simp
    ring
  · have h32 : (3 - 2 : ℕ) = 1 := rfl
    simp only [sample_r2hc3, sum_range_succ, sum_range_zero, h32, e2, e4, sin_two_thirds_pi,
      sin_four_thirds_pi]
    simp
    ring

/-! ## Reference equivalence -/

/-- C1 as amended. For every reduced size `n ≥ 1`, non-zero output stride and
real input, when no index product `is * j`, `os * k` (`j, k = 0 .. n-2`)
leaves the range of `unsigned int`, if the bound table holds
`W[i] = sin(π i / n)` and the sub-plan computes the exact half-complex
transform of the scratch array, `apply` completes and
`O[os * k] = c * ∑ x[j] sin(π (j+1) (k+1) / n)` for every `k = 0 .. n-2`, with
`c = 1` and `x[j] = I[is * j]`. -/
theorem apply_reference_equivalence (ego : P ℝ) (w : ℕ → ℝ) (scratch : ℕ → ℝ)
    (I O : Int → ℝ) (hn : 1 ≤ ego.n.val) (hos : ego.os ≠ 0)
    (hfi : StrideFits ego.is (ego.n.val - 1)) (hfo : StrideFits ego.os (ego.n.val - 1))
    (hW : ego.W = some w)
    (hw : IsSineTable ego.n.val w) (hcld : IsR2HC ego.n.val ego.cld.apply) :
    ∃ s, apply ego scratch I O = .ok s
      ∧ ∀ k, k + 2 ≤ ego.n.val →
          s.O (ego.os * (k : Int))
            = 1 * ∑ j in range (ego.n.val - 1),
                I (ego.is * (j : Int))
                  * Real.sin (Real.pi * ((j : ℝ) + 1) * ((k : ℝ) + 1) / (ego.n.val : ℝ)) := by
  obtain ⟨s, hs, hk⟩ := apply_dst_fits ego w scratch I O hn hos hfi hfo hW hw hcld
  refine ⟨s, hs, fun k hkn => ?_⟩
  rw [hk k hkn, one_mul]

/-- Instance of `apply_reference_equivalence`: reduced size 3, unit strides,
the table `sin(π i / 3)` and the sample sub-plan of size 3. -/
theorem apply_reference_equivalence_witness :
    (1 ≤ 3 ∧ (1 : Int) ≠ 0 ∧ StrideFits 1 (3 - 1)
      ∧ IsSineTable 3 (fun i => Real.sin (Real.pi * (i : ℝ) / ((3 : ℕ) : ℝ)))
      ∧ IsR2HC 3 (sample_r2hc3 (Real.sqrt 3 / 2)))
    ∧ ∃ s, apply (sample_plan3 (Real.sqrt 3 / 2)
          (fun i => Real.sin (Real.pi * (i : ℝ) / ((3 : ℕ) : ℝ))))
          (fun _ => 0) sample_input (fun _ => 0) = .ok s
      ∧ ∀ k : ℕ, k + 2 ≤ 3 →
          s.O (1 * (k : Int))
            = 1 * ∑ j in range (3 - 1),
                sample_input (1 * (j : Int))
                  * Real.sin (Real.pi * ((j : ℝ) + 1) * ((k : ℝ) + 1) / ((3 : ℕ) : ℝ)) :=
  ⟨⟨by decide, by decide, by decide, fun _ _ => rfl, sample_r2hc3_spec⟩,
    apply_reference_equivalence (sample_plan3 (Real.sqrt 3 / 2)
      (fun i => Real.sin (Real.pi * (i : ℝ) / ((3 : ℕ) : ℝ)))) _ (fun _ => 0) sample_input
      (fun _ => 0) (by decide) (by decide) (by decide) (by decide) rfl (fun _ _ => rfl)
      sample_r2hc3_spec⟩

/-- Values of the scratch array for reduced size 3, unit input stride and the
sample input. -/
theorem preOut_sample3 (w : ℕ → ℝ) (scratch : ℕ → ℝ) :
    preOut w sample_input 1 3 scratch 0 = 0
    ∧ preOut w sample_input 1 3 scratch 1 = w 1 + 1 / 2
    ∧ preOut w sample_input 1 3 scratch 2 = w 1 - 1 / 2 := by
  refine ⟨?_, ?_, ?_⟩
  · simp [preOut, preBuf]
  · simp [preOut, preBuf, preFront, sample, sample_input, sidx, UINT_MOD]
    norm_num
  · simp [preOut, preBuf, preBack, sample, sample_input, sidx, UINT_MOD]
    norm_num

/-- At a negative input stride the output is not a multiple of the transform
of `x[j] = I[is * j]`, even with the table `apply` needs. Reduced size 3,
`is = -1`, `os = 1` and `x = (1, 1)` laid out at `I[0]` and `I[-1]`: the index
`is * 1` is computed in `unsigned int`, so the code reads `I[4294967295] = 0`
for `x[1]` and returns `O[1] = sin(2π/3) = √3/2`, while the sine sum for
`k = 1` is `sin(2π/3) + sin(4π/3) = 0`. -/
theorem negative_stride_breaks_dst :
    ¬ ∃ c : ℝ, ∃ s,
        apply (sample_strided3 (Real.sqrt 3 / 2)
            (fun i => Real.sin (Real.pi * (i : ℝ) / ((3 : ℕ) : ℝ))) (-1) 1)
          (fun _ => 0) sample_back (fun _ => 0) = .ok s
        ∧ ∀ k : ℕ, k + 2 ≤ 3 →
            s.O (1 * (k : Int))
              = c * ∑ j in range (3 - 1),
                  sample_back ((-1) * (j : Int))
                    * Real.sin (Real.pi * ((j : ℝ) + 1) * ((k : ℝ) + 1) / ((3 : ℕ) : ℝ)) := by
  rintro ⟨c, s, hs, hk⟩
  obtain ⟨s2, hs2, hcore⟩ := apply_dst_core (sample_strided3 (Real.sqrt 3 / 2)
    (fun i => Real.sin (Real.pi * (i : ℝ) / ((3 : ℕ) : ℝ))) (-1) 1) _ (fun _ => 0)
    sample_back (fun _ => 0) (by decide) (by decide) rfl (fun _ _ => rfl) sample_r2hc3_spec
  rw [hs2] at hs
  have hss : s2 = s := by
    injection hs
  subst hss
  have a1 : Real.pi * (((0 : ℕ) : ℝ) + 1) * (((1 : ℕ) : ℝ) + 1) / ((3 : ℕ) : ℝ)
      = 2 * Real.pi / 3 := by
    push_cast; ring
  have a2 : Real.pi * (((1 : ℕ) : ℝ) + 1) * (((1 : ℕ) : ℝ) + 1) / ((3 : ℕ) : ℝ)
      = 4 * Real.pi / 3 := by
    push_cast; ring
  have c1 := hcore 1 (by decide)
  have k1 := hk 1 (by decide)
  have hn : (sample_strided3 (Real.sqrt 3 / 2)
      (fun i => Real.sin (Real.pi * (i : ℝ) / ((3 : ℕ) : ℝ))) (-1) 1).n.val = 3 := rfl
  have his : (sample_strided3 (Real.sqrt 3 / 2)
      (fun i => Real.sin (Real.pi * (i : ℝ) / ((3 : ℕ) : ℝ))) (-1) 1).is = -1 := rfl
  have hos : (sample_strided3 (Real.sqrt 3 / 2)
      (fun i => Real.sin (Real.pi * (i : ℝ) / ((3 : ℕ) : ℝ))) (-1) 1).os = 1 := rfl
  have e1 : sidx (1 : Int) 1 = 1 := by decide
  have e2 : sidx (-1 : Int) 0 = 0 := by decide
  have e3 : sidx (-1 : Int) 1 = 4294967295 := by decide
  have e4 : (1 : Int) * ((1 : ℕ) : Int) = 1 := by norm_num
  rw [hn, his, hos, e1] at c1
  rw [e4, c1] at k1
  simp only [sum_range_succ, sum_range_zero, sample_back, a1, a2, sin_two_thirds_pi,
    sin_four_thirds_pi, e2, e3] at k1
  norm_num at k1

/-- With the table of the specification the output is not a multiple of the
transform. Reduced size 3, unit strides, input `(1, 0)`, the table
`W[i] = sin(π i / (2n))` and an exact sub-plan: `apply` returns `O[0] = 1/2`
and `O[1] = √3/2`, while both sine sums are `√3/2`. -/
theorem spec_table_no_factor :
    IsSpecSineTable 3 (fun i => Real.sin (Real.pi * (i : ℝ) / (2 * ((3 : ℕ) : ℝ))))
    ∧ IsR2HC 3 (sample_r2hc3 (Real.sqrt 3 / 2))
    ∧ ¬ ∃ c : ℝ, ∃ s,
        apply (sample_plan3 (Real.sqrt 3 / 2)
            (fun i => Real.sin (Real.pi * (i : ℝ) / (2 * ((3 : ℕ) : ℝ)))))
          (fun _ => 0) sample_input (fun _ => 0) = .ok s
        ∧ ∀ k : ℕ, k + 2 ≤ 3 →
            s.O (1 * (k : Int))
              = c * ∑ j in range (3 - 1),
                  sample_input (1 * (j : Int))
                    * Real.sin (Real.pi * ((j : ℝ) + 1) * ((k : ℝ) + 1) / ((3 : ℕ) : ℝ)) := by
  refine ⟨fun _ => rfl, sample_r2hc3_spec, ?_⟩
  rintro ⟨c, s, hs, hk⟩
  obtain ⟨s1, _, _, hb1, happ⟩ := apply_eq_post (sample_plan3 (Real.sqrt 3 / 2)
    (fun i => Real.sin (Real.pi * (i : ℝ) / (2 * ((3 : ℕ) : ℝ))))) _ (fun _ => 0)
    sample_input (fun _ => 0) (by decide) rfl
  obtain ⟨s2, hs2, _, h0, hodd, _, _⟩ := apply_post_ok (sample_plan3 (Real.sqrt 3 / 2)
    (fun i => Real.sin (Real.pi * (i : ℝ) / (2 * ((3 : ℕ) : ℝ)))))
    (apply_cld _ s1) (by decide) (by decide)
  rw [happ, hs2] at hs
  have hss : s2 = s := by
    injection hs
  subst hss
  obtain ⟨p0, p1, p2⟩ := preOut_sample3
    (fun i => Real.sin (Real.pi * (i : ℝ) / (2 * ((3 : ℕ) : ℝ)))) (fun _ => 0)
  have hw1 : Real.sin (Real.pi * ((1 : ℕ) : ℝ) / (2 * ((3 : ℕ) : ℝ))) = 1 / 2 := by
    have e : Real.pi * ((1 : ℕ) : ℝ) / (2 * ((3 : ℕ) : ℝ)) = Real.pi / 6 := by
      push_cast; ring
    rw [e, Real.sin_pi_div_six]
  have k0 := hk 0 (by decide)
  have k1 := hk 1 (by decide)
  have o1 := hodd 1 (by decide) (by decide)
  rw [hb1] at h0 o1
  simp only [sample_plan3, sample_r2hc3, p0, p1, p2, hw1] at h0 o1
  have O0 : s2.O 0 = 1 / 2 := by
    rw [h0]
    norm_num
  have O1 : s2.O 1 = Real.sqrt 3 / 2 := by
    have e : sidx (1 : Int) (2 * 1 - 1) = 1 := by decide
    rw [e] at o1
    rw [o1]
    norm_num
  have a0 : Real.pi * (((0 : ℕ) : ℝ) + 1) * (((0 : ℕ) : ℝ) + 1) / ((3 : ℕ) : ℝ) = Real.pi / 3 := by
    push_cast; ring
  have a1 : Real.pi * (((0 : ℕ) : ℝ) + 1) * (((1 : ℕ) : ℝ) + 1) / ((3 : ℕ) : ℝ)
      = 2 * Real.pi / 3 := by
    push_cast; ring
  have D0 : s2.O 0 = c * (Real.sqrt 3 / 2) := by
    have e : (1 : Int) * ((0 : ℕ) : Int) = 0 := by norm_num
    rw [e] at k0
    rw [k0]
    simp only [sum_range_succ, sum_range_zero, sample_input, a0, Real.sin_pi_div_three]
    norm_num
  have D1 : s2.O 1 = c * (Real.sqrt 3 / 2) := by
    have e : (1 : Int) * ((1 : ℕ) : Int) = 1 := by norm_num
    rw [e] at k1
    rw [k1]
    simp only [sum_range_succ, sum_range_zero, sample_input, a1, sin_two_thirds_pi]
    norm_num
  have h3 : Real.sqrt 3 = 1 := by linarith
  have h4 : Real.sqrt 3 ^ 2 = 3 := Real.sq_sqrt (by norm_num)
  rw [h3] at h4
  norm_num at h4

/-- C1 fails as stated, on two counts. With the table `W[i] = sin(π i / (2n))`
of the specification (reduced size 3, unit strides, input `(1, 0)`, an exact
sub-plan) `apply` returns `O[0] = 1/2` and `O[1] = √3/2`, while both sine sums
are `√3/2`, so no single factor `c` relates the output to the transform. And
the index products are taken in `unsigned int`: at `is = -1`, even with the
table `sin(π i / n)`, the code reads `I[4294967295]` for `x[1] = I[is * 1]`,
and the output is not a multiple of the transform of `x` either. -/
theorem spec_table_breaks_dst :
    (IsSpecSineTable 3 (fun i => Real.sin (Real.pi * (i : ℝ) / (2 * ((3 : ℕ) : ℝ))))
      ∧ IsR2HC 3 (sample_r2hc3 (Real.sqrt 3 / 2))
      ∧ ¬ ∃ c : ℝ, ∃ s,
          apply (sample_plan3 (Real.sqrt 3 / 2)
              (fun i => Real.sin (Real.pi * (i : ℝ) / (2 * ((3 : ℕ) : ℝ)))))
            (fun _ => 0) sample_input (fun _ => 0) = .ok s
          ∧ ∀ k : ℕ, k + 2 ≤ 3 →
              s.O (1 * (k : Int))
                = c * ∑ j in range (3 - 1),
                    sample_input (1 * (j : Int))
                      * Real.sin (Real.pi * ((j : ℝ) + 1) * ((k : ℝ) + 1) / ((3 : ℕ) : ℝ)))
    ∧ (IsSineTable 3 (fun i => Real.sin (Real.pi * (i : ℝ) / ((3 : ℕ) : ℝ)))
      ∧ sidx (-1) 1 = 4294967295
      ∧ ¬ ∃ c : ℝ, ∃ s,
          apply (sample_strided3 (Real.sqrt 3 / 2)
              (fun i => Real.sin (Real.pi * (i : ℝ) / ((3 : ℕ) : ℝ))) (-1) 1)
            (fun _ => 0) sample_back (fun _ => 0) = .ok s
          ∧ ∀ k : ℕ, k + 2 ≤ 3 →
              s.O (1 * (k : Int))
                = c * ∑ j in range (3 - 1),
                    sample_back ((-1) * (j : Int))
                      * Real.sin (Real.pi * ((j : ℝ) + 1) * ((k : ℝ) + 1) / ((3 : ℕ) : ℝ))) :=
  ⟨spec_table_no_factor, fun _ _ => rfl, by decide, negative_stride_breaks_dst⟩

/-! ## `apply` on a dormant plan -/

/-- With no table bound and `n ≥ 3` the first iteration of the
pre-processing loop reads `W[1]` through the null pointer. -/
theorem apply_pre_null {α : Type} [Field α] (ego : P α) (scratch : Nat → α) (I O : Int → α)
    (hW : ego.W = none) (hn : 3 ≤ ego.n.val) :
    apply_pre ego scratch I O = .error Fault.nullW := by
  have hlt := ego.n.isLt
  have hpos : 0 < apply_buf_len ego := by
    unfold apply_buf_len
    omega
  have hc : 1 < usub ego.n.val 1 := by
    rw [usub_of_le (by omega) hlt]
    omega
  unfold apply_pre
  simp only [hpos, if_true, hW, preLoop_null I ego.is ego.n.val 1 _ hc]

/-- For `n = 1` and `n = 2` neither loop of `apply` runs and no table entry is
read: `apply` completes whatever `W` is. -/
theorem apply_small_ok {α : Type} [Field α] (ego : P α) (scratch : Nat → α) (I O : Int → α)
    (hn : 1 ≤ ego.n.val) (hn2 : ego.n.val ≤ 2) :
    ∃ s, apply ego scratch I O = .ok s := by
  have hlt := ego.n.isLt
  have hpos : 0 < apply_buf_len ego := hn
  have hsub : usub ego.n.val 1 = ego.n.val - 1 := usub_of_le hn hlt
  have hadd : uadd 1 1 = 2 := uadd_of_lt (by unfold UINT_MOD; omega)
  have hc : ¬ 1 < usub ego.n.val 1 := by
    rw [hsub]
    omega
  have hc2 : ¬ uadd 1 1 < usub ego.n.val 1 := by
    rw [hsub, hadd]
    omega
  have hne : ¬ uadd 1 1 = usub ego.n.val 1 := by
    rw [hsub, hadd]
    omega
  unfold apply apply_pre
  simp only [hpos, if_true, preLoop_exit ego.W I ego.is ego.n.val 1 _ hc, hsub]
  by_cases hmid : 1 = ego.n.val - 1
  · have hin : 1 < apply_buf_len ego := by
      unfold apply_buf_len
      omega
    rw [if_pos hmid, if_pos hin]
    unfold apply_post
    simp only [hpos, if_true, postLoop_exit ego.os ego.n.val hlt 1 _ hc2, hne, if_false]
    exact ⟨_, rfl⟩
  · rw [if_neg hmid]
    unfold apply_post
    simp only [hpos, if_true, postLoop_exit ego.os ego.n.val hlt 1 _ hc2, hne, if_false]
    exact ⟨_, rfl⟩

/-- C7 as amended. On a plan with no table bound and reduced size `n ≥ 1`,
`apply` fails with the null-pointer fault exactly when `n ≥ 3`; for `n = 1`
and `n = 2` it reads no table entry and completes. -/
theorem apply_dormant {α : Type} [Field α] (ego : P α) (scratch : Nat → α) (I O : Int → α)
    (hW : ego.W = none) (hn : 1 ≤ ego.n.val) :
    (apply ego scratch I O = .error Fault.nullW ↔ 3 ≤ ego.n.val)
    ∧ ((∃ s, apply ego scratch I O = .ok s) ↔ ego.n.val ≤ 2) := by
  by_cases h3 : 3 ≤ ego.n.val
  · have hf : apply ego scratch I O = .error Fault.nullW := by
      unfold apply
      rw [apply_pre_null ego scratch I O hW h3]
    refine ⟨⟨fun _ => h3, fun _ => hf⟩, ⟨?_, fun h => by omega⟩⟩
    rintro ⟨s, hs⟩
    rw [hf] at hs
    cases hs
  · obtain ⟨s, hs⟩ := apply_small_ok ego scratch I O hn (by omega)
    refine ⟨⟨?_, fun h => absurd h h3⟩, ⟨fun _ => by omega, fun _ => ⟨s, hs⟩⟩⟩
    intro hf
    rw [hs] at hf
    cases hf

/-- Instance of `apply_dormant`: the dormant sample plan of reduced size 3. -/
theorem apply_dormant_witness :
    (sample_plan.W = none ∧ 1 ≤ sample_plan.n.val)
    ∧ (apply sample_plan (fun _ => 0) sample_input (fun _ => 0) = .error Fault.nullW
        ↔ 3 ≤ sample_plan.n.val)
    ∧ ((∃ s, apply sample_plan (fun _ => 0) sample_input (fun _ => 0) = .ok s)
        ↔ sample_plan.n.val ≤ 2) :=
  ⟨⟨rfl, by decide⟩,
    apply_dormant sample_plan (fun _ => 0) sample_input (fun _ => 0) rfl (by decide)⟩

/-- C7 fails as stated: the dormant plan of reduced size 2 has no table bound,
yet `apply` completes; its accesses include no read of `W`. -/
theorem apply_dormant_completes :
    sample_dormant2.W = none ∧ sample_dormant2.td.isNone = true
    ∧ ∃ s, apply sample_dormant2 (fun _ => 0) sample_input (fun _ => 0) = .ok s
        ∧ s.log = [.writeBuf 0, .readI 0, .writeBuf 1, .callCld, .readBuf 0, .writeO 0] := by
  refine ⟨rfl, rfl, ?_⟩
  have hc : ¬ 1 < usub 2 1 := by decide
  have hc2 : ¬ uadd 1 1 < usub 2 1 := by decide
  have e1 : usub 2 1 = 1 := by decide
  have e2 : uadd 1 1 = 2 := by decide
  have e3 : usub 1 1 = 0 := by decide
  have happ : apply sample_dormant2 (fun _ => 0) sample_input (fun _ => 0)
      = apply_post sample_dormant2 (apply_cld sample_dormant2
          (((⟨fun _ => 0, fun _ => 0, []⟩ : Mem ℚ).setBuf 0 0).note
            [.readI (2 * ((0 : ℕ) : Int))] |>.setBuf 1 (2.0 * sample_input (2 * ((0 : ℕ) : Int))))) := by
    simp only [apply, apply_pre, apply_buf_len, sample_dormant2, sample_plan,
      preLoop_exit _ _ _ 2 1 _ hc, e1, e3]
    rfl
  have hpost : apply_post sample_dormant2 (apply_cld sample_dormant2
          (((⟨fun _ => 0, fun _ => 0, []⟩ : Mem ℚ).setBuf 0 0).note
            [.readI (2 * ((0 : ℕ) : Int))] |>.setBuf 1 (2.0 * sample_input (2 * ((0 : ℕ) : Int)))))
      = .ok (((apply_cld sample_dormant2
          (((⟨fun _ => 0, fun _ => 0, []⟩ : Mem ℚ).setBuf 0 0).note
            [.readI (2 * ((0 : ℕ) : Int))] |>.setBuf 1 (2.0 * sample_input (2 * ((0 : ℕ) : Int))))).note
              [.readBuf 0]).setO 0 ((apply_cld sample_dormant2
          (((⟨fun _ => 0, fun _ => 0, []⟩ : Mem ℚ).setBuf 0 0).note
            [.readI (2 * ((0 : ℕ) : Int))] |>.setBuf 1 (2.0 * sample_input (2 * ((0 : ℕ) : Int))))).buf 0 * 0.5)) := by
    simp only [apply_post, apply_buf_len, sample_dormant2, sample_plan,
      postLoop_exit _ 2 _ 1 _ hc2, e1, e2]
    rfl
  refine ⟨_, happ.trans hpost, ?_⟩
  simp [Mem.setO, Mem.setBuf, Mem.note, apply_cld]

/-- The loop entered at `i` with a table bound appends the accesses of its
iterations to the log. -/
theorem preLoop_log {α : Type} [Field α] (w : Nat → α) (I : Int → α) (is : Int)
    (n : Nat) (hn : n < UINT_MOD) (d : Nat) :
    ∀ (i : Nat) (s : Mem α), 1 ≤ i → 2 * i ≤ n + 1 → (n + 1) / 2 - i = d →
      ∃ s', preLoop (some w) I is n i s = .ok ((n + 1) / 2, s')
        ∧ s'.log = s.log ++ preIters is n i d := by
  induction d with
  | zero =>
    intro i s hi h2 hd
    have hi2 : i = (n + 1) / 2 := by omega
    have hex : ¬ i < usub n i := by
      rw [usub_of_le (by omega) hn]
      omega
    refine ⟨s, ?_, ?_⟩
    · rw [preLoop_exit _ I is n i s hex, hi2]
    · simp [preIters]
  | succ d ih =>
    intro i s hi h2 hd
    have hlt : 2 * i < n := by omega
    rw [preLoop_step w I is n i s hn hi hlt]
    obtain ⟨s', hs', hlog⟩ := ih (i + 1)
      ((((s.note [.readI (sidx is (i - 1)),
                  .readI (sidx is (n - i - 1))]).note [.readW i]).setBuf i
          (preFront w I is n i)).setBuf (n - i) (preBack w I is n i))
      (by omega) (by omega) (by omega)
    refine ⟨s', hs', ?_⟩
    rw [hlog]
    simp [Mem.setBuf, Mem.note, preIters, preIterLog]

/-- The post-processing loop entered at `i` runs to `max i (n / 2)` without
fault for any stride, leaves the scratch array alone and appends the accesses
of its iterations to the log. -/
theorem postLoop_log {α : Type} [Field α] (os : Int) (n : Nat) (hn : n < UINT_MOD) (d : Nat) :
    ∀ (i : Nat) (s : Mem α), 1 ≤ i → 2 * i ≤ n + 1 → 2 * i < UINT_MOD → n / 2 - i = d →
      ∃ s', postLoop os n hn i s = .ok (max i (n / 2), s')
        ∧ s'.buf = s.buf ∧ s'.log = s.log ++ postIters os n i d := by
  induction d with
  | zero =>
    intro i s hi h2 h3 hd
    have hex : ¬ uadd i i < usub n 1 := by
      rw [usub_of_le (by omega) hn, uadd_of_lt (by omega)]
      omega
    refine ⟨s, ?_, rfl, ?_⟩
    · rw [postLoop_exit os n hn i s hex]
      congr 2
      omega
    · simp [postIters]
  | succ d ih =>
    intro i s hi h2 h3 hd
    have hlt : 2 * i + 1 < n := by omega
    rw [postLoop_step os n hn i s hi hlt]
    obtain ⟨s', hs', hbuf, hlog⟩ :=
      ih (i + 1) (postBody os n i s) (by omega) (by omega) (by omega) (by omega)
    have hmax : max (i + 1) (n / 2) = max i (n / 2) := by omega
    refine ⟨s', ?_, ?_, ?_⟩
    · rw [hs', hmax]
    · rw [hbuf]
      rfl
    · rw [hlog]
      simp [postBody, Mem.setO, Mem.note, postIters, postIterLog]

/-- With a table bound and `n ≥ 1`, pre-processing completes with the access
log `preLog`. -/
theorem apply_pre_log {α : Type} [Field α] (ego : P α) (w : Nat → α) (scratch : Nat → α)
    (I O : Int → α) (hn : 1 ≤ ego.n.val) (hW : ego.W = some w) :
    ∃ s, apply_pre ego scratch I O = .ok s ∧ s.log = preLog ego.is ego.n.val := by
  have hlt := ego.n.isLt
  obtain ⟨s', hs', hlog⟩ := preLoop_log w I ego.is ego.n.val hlt ((ego.n.val + 1) / 2 - 1) 1
    ((⟨scratch, O, []⟩ : Mem α).setBuf 0 0) (le_refl 1) (by omega) rfl
  have hpos : 0 < apply_buf_len ego := hn
  have hsub : usub ego.n.val ((ego.n.val + 1) / 2) = ego.n.val - (ego.n.val + 1) / 2 :=
    usub_of_le (by omega) hlt
  have hsub1 : usub ((ego.n.val + 1) / 2) 1 = (ego.n.val + 1) / 2 - 1 :=
    usub_of_le (by omega) (by omega)
  unfold apply_pre
  simp only [hpos, if_true, hW, hs', hsub, hsub1]
  by_cases hmid : (ego.n.val + 1) / 2 = ego.n.val - (ego.n.val + 1) / 2
  · have hin : (ego.n.val + 1) / 2 < apply_buf_len ego := by
      unfold apply_buf_len
      omega
    have hev : ego.n.val % 2 = 0 := by omega
    have e1 : (ego.n.val + 1) / 2 = ego.n.val / 2 := by omega
    rw [if_pos hmid, if_pos hin]
    refine ⟨_, rfl, ?_⟩
    simp only [Mem.setBuf, Mem.note, hlog, preLog, if_pos hev, e1]
    simp
  · have hodd : ¬ ego.n.val % 2 = 0 := by omega
    rw [if_neg hmid]
    refine ⟨s', rfl, ?_⟩
    simp only [hlog, preLog, if_neg hodd, Mem.setBuf]
    simp

/-- For `n ≥ 1` and any stride, post-processing completes, leaves the scratch
array alone and appends the accesses `postLog` to the log. -/
theorem apply_post_log {α : Type} [Field α] (ego : P α) (s : Mem α) (hn : 1 ≤ ego.n.val) :
    ∃ s', apply_post ego s = .ok s' ∧ s'.buf = s.buf
      ∧ s'.log = s.log ++ postLog ego.os ego.n.val := by
  have hlt := ego.n.isLt
  have hM : 2 * 1 < UINT_MOD := by unfold UINT_MOD; omega
  obtain ⟨s1, hs1, hbuf, hlog⟩ :=
    postLoop_log ego.os ego.n.val hlt (ego.n.val / 2 - 1) 1
      ((s.note [.readBuf 0]).setO 0 (s.buf 0 * 0.5)) (le_refl 1) (by omega) hM rfl
  have hpos : 0 < apply_buf_len ego := hn
  have hi1 : usub ego.n.val 1 = ego.n.val - 1 := usub_of_le hn hlt
  have hi2 : uadd (max 1 (ego.n.val / 2)) (max 1 (ego.n.val / 2))
      = max 1 (ego.n.val / 2) + max 1 (ego.n.val / 2) :=
    uadd_of_lt (by unfold UINT_MOD at *; omega)
  have hi3 : usub ego.n.val (max 1 (ego.n.val / 2)) = ego.n.val - max 1 (ego.n.val / 2) :=
    usub_of_le (by omega) hlt
  unfold apply_post
  simp only [hpos, if_true, hs1, hi1, hi2, hi3]
  by_cases hodd_n : max 1 (ego.n.val / 2) + max 1 (ego.n.val / 2) = ego.n.val - 1
  · have hin : ego.n.val - max 1 (ego.n.val / 2) < apply_buf_len ego := by
      unfold apply_buf_len
      omega
    have hn2 : usub ego.n.val 2 = ego.n.val - 2 := usub_of_le (by omega) hlt
    have hmx : max 1 (ego.n.val / 2) = ego.n.val / 2 := by omega
    have hc : ego.n.val % 2 = 1 ∧ 3 ≤ ego.n.val := by omega
    rw [if_pos hodd_n, if_pos hin, hn2, hmx]
    refine ⟨_, rfl, ?_, ?_⟩
    · simp only [Mem.setO, Mem.note, hbuf]
    · simp only [Mem.setO, Mem.note, hlog, postLog, if_pos hc]
      simp
  · have hc : ¬ (ego.n.val % 2 = 1 ∧ 3 ≤ ego.n.val) := by omega
    rw [if_neg hodd_n]
    refine ⟨s1, rfl, ?_, ?_⟩
    · rw [hbuf]
      rfl
    · simp only [hlog, postLog, if_neg hc, Mem.setO, Mem.note]
      simp

/-- With a table bound and `n ≥ 1`, `apply` completes for any strides; its
access log is that of pre-processing, the call of the sub-plan, and that of
post-processing. -/
theorem apply_log {α : Type} [Field α] (ego : P α) (w : Nat → α) (scratch : Nat → α)
    (I O : Int → α) (hn : 1 ≤ ego.n.val) (hW : ego.W = some w) :
    ∃ s1 s, apply_pre ego scratch I O = .ok s1 ∧ s1.log = preLog ego.is ego.n.val
      ∧ apply ego scratch I O = .ok s
      ∧ s.log = preLog ego.is ego.n.val ++ .callCld :: postLog ego.os ego.n.val := by
  obtain ⟨s1, hs1, hl1⟩ := apply_pre_log ego w scratch I O hn hW
  obtain ⟨s, hs, _, hl⟩ := apply_post_log ego (apply_cld ego s1) hn
  refine ⟨s1, s, hs1, hl1, ?_, ?_⟩
  · unfold apply
    rw [hs1]
    exact hs
  · rw [hl]
    simp [apply_cld, hl1]

/-! ## Reads of `O` after stores -/

/-- The iterations of the pre-processing loop read `W[i], W[i+1], ..`, once
each. -/
theorem preIters_readW (is : Int) (n : Nat) (c : Nat) :
    ∀ i, (preIters is n i c).filterMap Access.readWIdx = List.range' i c := by
  induction c with
  | zero =>
    intro i
    simp [preIters]
  | succ c ih =>
    intro i
    rw [List.range'_succ]
    simp [preIters, preIterLog, Access.readWIdx, ih (i + 1)]

/-- Pre-processing reads `W[1], .., W[(n-1)/2]`, once each, and nothing else
of `W`. -/
theorem preLog_readW (is : Int) (n : Nat) (hn : 1 ≤ n) :
    (preLog is n).filterMap Access.readWIdx = List.range' 1 ((n - 1) / 2) := by
  have e : (n + 1) / 2 - 1 = (n - 1) / 2 := by omega
  unfold preLog
  by_cases hc : n % 2 = 0
  · simp [hc, preIters_readW, Access.readWIdx, e]
  · simp [hc, preIters_readW, Access.readWIdx, e]

/-- The cells the loop fills from `i` on, with the middle cell of an even
`n`, are the cells `i .. n - i`. -/
theorem preIters_writeBuf_perm (is : Int) (n : Nat) (c : Nat) :
    ∀ i, 1 ≤ i → i + c = (n + 1) / 2 →
      ((preIters is n i c).filterMap Access.writeBufIdx
          ++ (if n % 2 = 0 then [n / 2] else [])).Perm
        (List.range' i (n + 1 - 2 * i)) := by
  induction c with
  | zero =>
    intro i hi hc
    by_cases hev : n % 2 = 0
    · have e1 : n + 1 - 2 * i = 1 := by omega
      have e2 : n / 2 = i := by omega
      simp [preIters, hev, e1, e2]
    · have e1 : n + 1 - 2 * i = 0 := by omega
      simp [preIters, hev, e1]
  | succ c ih =>
    intro i hi hc
    have e1 : n + 1 - 2 * i = (n + 1 - 2 * (i + 1)) + 1 + 1 := by omega
    have e2 : i + 1 + 1 * (n + 1 - 2 * (i + 1)) = n - i := by omega
    have hp := ih (i + 1) (by omega) (by omega)
    rw [e1, List.range'_succ, List.range'_concat, e2]
    simp only [preIters, preIterLog, List.filterMap_append, List.filterMap_cons,
      Access.writeBufIdx, List.filterMap_nil, List.cons_append, List.nil_append, Nat.mul_one]
    refine List.Perm.cons i ?_
    exact (List.Perm.cons (n - i) hp).trans (List.perm_append_singleton _ _).symm

/-- Pre-processing stores to every scratch cell `0 .. n-1`, once each. -/
theorem preLog_writeBuf_perm (is : Int) (n : Nat) (hn : 1 ≤ n) :
    ((preLog is n).filterMap Access.writeBufIdx).Perm (List.range n) := by
  have hp := preIters_writeBuf_perm is n ((n + 1) / 2 - 1) 1 (le_refl 1) (by omega)
  have e : n + 1 - 2 * 1 = n - 1 := by omega
  have hr : List.range n = 0 :: List.range' 1 (n - 1) := by
    rw [List.range_eq_range']
    have : n = (n - 1) + 1 := by omega
    conv_lhs => rw [this, List.range'_succ]
  rw [e] at hp
  rw [hr]
  unfold preLog
  by_cases hc : n % 2 = 0
  · simp only [hc, if_true] at hp ⊢
    simpa [Access.writeBufIdx] using hp
  · simp only [hc, if_false] at hp ⊢
    simpa [Access.writeBufIdx] using hp

/-- C11. For `n = 1`, whatever the table, the strides and the arrays, `apply`
completes; pre-processing only stores `buf[0] = 0` and reads no input, the
sub-plan is called once on that buffer, and the only store to `O` is
`O[0] = buf[0] * 0.5`, which is 0 when the sub-plan of size 1 returns its one
sample. -/
theorem apply_size_one {α : Type} [Field α] (ego : P α) (scratch : Nat → α) (I O : Int → α)
    (hn : ego.n.val = 1) (hdc : ∀ y : Nat → α, ego.cld.apply y 0 = y 0) :
    ∃ s1 s, apply_pre ego scratch I O = .ok s1
      ∧ s1.log = [.writeBuf 0]
      ∧ s1.buf 0 = 0
      ∧ apply ego scratch I O = .ok s
      ∧ s.log = [.writeBuf 0, .callCld, .readBuf 0, .writeO 0]
      ∧ s.buf = ego.cld.apply s1.buf
      ∧ s.O 0 = 0
      ∧ ∀ off : Int, off ≠ 0 → s.O off = O off := by
  have hlt := ego.n.isLt
  have hpos : 0 < apply_buf_len ego := by
    unfold apply_buf_len
    omega
  have hsub : usub ego.n.val 1 = 0 := by
    rw [usub_of_le (by omega) hlt]
    omega
  have hadd : uadd 1 1 = 2 := uadd_of_lt (by unfold UINT_MOD; omega)
  have hc : ¬ 1 < usub ego.n.val 1 := by
    rw [hsub]
    omega
  have hmid : ¬ 1 = usub ego.n.val 1 := by
    rw [hsub]
    omega
  have hc2 : ¬ uadd 1 1 < usub ego.n.val 1 := by
    rw [hsub, hadd]
    omega
  have hne : ¬ uadd 1 1 = usub ego.n.val 1 := by
    rw [hsub, hadd]
    omega
  have hpre : apply_pre ego scratch I O = .ok ((⟨scratch, O, []⟩ : Mem α).setBuf 0 0) := by
    unfold apply_pre
    simp only [hpos, if_true, preLoop_exit ego.W I ego.is ego.n.val 1 _ hc, hmid, if_false]
  have hpost : ∀ t : Mem α,
      apply_post ego t = .ok ((t.note [.readBuf 0]).setO 0 (t.buf 0 * 0.5)) := by
    intro t
    unfold apply_post
    simp only [hpos, if_true, postLoop_exit ego.os ego.n.val hlt 1 _ hc2, hne, if_false]
  refine ⟨(⟨scratch, O, []⟩ : Mem α).setBuf 0 0,
    ((apply_cld ego ((⟨scratch, O, []⟩ : Mem α).setBuf 0 0)).note [.readBuf 0]).setO 0
      ((apply_cld ego ((⟨scratch, O, []⟩ : Mem α).setBuf 0 0)).buf 0 * 0.5),
    hpre, rfl, ?_, ?_, rfl, rfl, ?_, ?_⟩
  · simp [Mem.setBuf]
  · unfold apply
    rw [hpre]
    exact hpost _
  · simp [Mem.setO, Mem.note, Mem.setBuf, apply_cld, hdc]
  · intro off hoff
    simp [Mem.setO, Mem.note, Mem.setBuf, apply_cld, hoff]

/-- Instance of `apply_size_one`: the sample plan of reduced size 1. -/
theorem apply_size_one_witness :
    (sample_plan1.n.val = 1 ∧ ∀ y : Nat → ℚ, sample_plan1.cld.apply y 0 = y 0)
    ∧ ∃ s1 s, apply_pre sample_plan1 (fun _ => 5) sample_input (fun _ => 9) = .ok s1
      ∧ s1.log = [.writeBuf 0]
      ∧ s1.buf 0 = 0
      ∧ apply sample_plan1 (fun _ => 5) sample_input (fun _ => 9) = .ok s
      ∧ s.log = [.writeBuf 0, .callCld, .readBuf 0, .writeO 0]
      ∧ s.buf = sample_plan1.cld.apply s1.buf
      ∧ s.O 0 = 0
      ∧ ∀ off : Int, off ≠ 0 → s.O off = (fun _ => 9) off :=
  ⟨⟨rfl, fun _ => rfl⟩,
    apply_size_one sample_plan1 (fun _ => 5) sample_input (fun _ => 9) rfl (fun _ => rfl)⟩

/-! ## The formula of pre-processing -/

/-- C14. With a table bound and `n ≥ 1`, both loops of `apply` complete. The
test `i == n - i` after the first loop holds exactly when `n` is even, and then
`i = n / 2`; the test `i + i == n - 1` after the second loop holds exactly when
`n ≥ 2` is odd, and then `i = (n - 1) / 2`. So for `n ≥ 2` exactly one of the
two boundary branches runs, and for `n = 1` neither. -/
theorem boundary_branches {α : Type} [Field α] (ego : P α) (w : Nat → α) (I : Int → α)
    (s t : Mem α) (hn : 1 ≤ ego.n.val) (hW : ego.W = some w) :
    ∃ i s' j t',
      preLoop ego.W I ego.is ego.n.val 1 s = .ok (i, s')
      ∧ postLoop ego.os ego.n.val ego.n.isLt 1 t = .ok (j, t')
      ∧ (i = usub ego.n.val i ↔ ego.n.val % 2 = 0)
      ∧ (i = usub ego.n.val i → i = ego.n.val / 2)
      ∧ (uadd j j = usub ego.n.val 1 ↔ (ego.n.val % 2 = 1 ∧ 2 ≤ ego.n.val))
      ∧ (uadd j j = usub ego.n.val 1 → j = (ego.n.val - 1) / 2)
      ∧ (2 ≤ ego.n.val →
          (i = usub ego.n.val i ∧ ¬ uadd j j = usub ego.n.val 1)
          ∨ (¬ i = usub ego.n.val i ∧ uadd j j = usub ego.n.val 1))
      ∧ (ego.n.val = 1 → ¬ i = usub ego.n.val i ∧ ¬ uadd j j = usub ego.n.val 1) := by
  have hlt := ego.n.isLt
  have hM : 2 * 1 < UINT_MOD := by unfold UINT_MOD; omega
  obtain ⟨s', hs', _⟩ := preLoop_log w I ego.is ego.n.val hlt ((ego.n.val + 1) / 2 - 1) 1 s
    (le_refl 1) (by omega) rfl
  obtain ⟨t', ht', _, _⟩ := postLoop_log ego.os ego.n.val hlt (ego.n.val / 2 - 1) 1 t
    (le_refl 1) (by omega) hM rfl
  have h1 : usub ego.n.val ((ego.n.val + 1) / 2) = ego.n.val - (ego.n.val + 1) / 2 :=
    usub_of_le (by omega) hlt
  have h2 : usub ego.n.val 1 = ego.n.val - 1 := usub_of_le hn hlt
  have h3 : uadd (max 1 (ego.n.val / 2)) (max 1 (ego.n.val / 2))
      = max 1 (ego.n.val / 2) + max 1 (ego.n.val / 2) :=
    uadd_of_lt (by unfold UINT_MOD at *; omega)
  refine ⟨(ego.n.val + 1) / 2, s', max 1 (ego.n.val / 2), t', ?_, ht', ?_⟩
  · rw [hW]
    exact hs'
  · rw [h1, h2, h3]
    refine ⟨?_, ?_, ?_, ?_, ?_, ?_⟩
    · constructor <;> intro h <;> omega
    · intro h
      omega
    · constructor <;> intro h <;> omega
    · intro h
      omega
    · intro h
      omega
    · intro h
      omega

/-- Instance of `boundary_branches`: the active sample plan of reduced size 3. -/
theorem boundary_branches_witness :
    (1 ≤ sample_active.n.val ∧ sample_active.W = some (sample_mktw rodft00e_tw 6 1 2).W)
    ∧ ∃ i s' j t',
      preLoop sample_active.W sample_input sample_active.is sample_active.n.val 1 sample_mem
        = .ok (i, s')
      ∧ postLoop sample_active.os sample_active.n.val sample_active.n.isLt 1 sample_mem
        = .ok (j, t')
      ∧ (i = usub sample_active.n.val i ↔ sample_active.n.val % 2 = 0)
      ∧ (i = usub sample_active.n.val i → i = sample_active.n.val / 2)
      ∧ (uadd j j = usub sample_active.n.val 1
          ↔ (sample_active.n.val % 2 = 1 ∧ 2 ≤ sample_active.n.val))
      ∧ (uadd j j = usub sample_active.n.val 1 → j = (sample_active.n.val - 1) / 2)
      ∧ (2 ≤ sample_active.n.val →
          (i = usub sample_active.n.val i ∧ ¬ uadd j j = usub sample_active.n.val 1)
          ∨ (¬ i = usub sample_active.n.val i ∧ uadd j j = usub sample_active.n.val 1))
      ∧ (sample_active.n.val = 1 →
          ¬ i = usub sample_active.n.val i ∧ ¬ uadd j j = usub sample_active.n.val 1) :=
  ⟨⟨by decide, rfl⟩,
    boundary_branches sample_active _ sample_input sample_mem sample_mem (by decide) rfl⟩

/-! ## Footprints -/

/-- C17. For `n ≥ 1` and a bound table, pre-processing completes and reads
`W` at the indices `1, 2, .., (n-1)/2`, once each and nowhere else; each is
below `(n+1)/2`, the number of rows `awake` requests from the twiddle
constructor; for `n ≤ 2` it reads no entry of `W`. -/
theorem apply_pre_twiddle_reads {α : Type} [Field α] (ego : P α) (w : Nat → α)
    (scratch : Nat → α) (I O : Int → α) (hn : 1 ≤ ego.n.val) (hW : ego.W = some w) :
    ∃ s, apply_pre ego scratch I O = .ok s
      ∧ s.log.filterMap Access.readWIdx = List.range' 1 ((ego.n.val - 1) / 2)
      ∧ (s.log.filterMap Access.readWIdx).Nodup
      ∧ (∀ i ∈ s.log.filterMap Access.readWIdx,
          1 ≤ i ∧ i ≤ (ego.n.val - 1) / 2 ∧ i < (ego.n.val + 1) / 2)
      ∧ (ego.n.val ≤ 2 → s.log.filterMap Access.readWIdx = [])
      ∧ (2 * ego.n.val < UINT_MOD →
          ∀ mktw : List tw_instr → Nat → Nat → Nat → twid α,
            (awake mktw { ego with td := none } true).2
              = [.AWAKE true,
                  .mktwiddle rodft00e_tw (2 * ego.n.val) 1 ((ego.n.val + 1) / 2)]) := by
  obtain ⟨s, hs, hlog⟩ := apply_pre_log ego w scratch I O hn hW
  have hr : s.log.filterMap Access.readWIdx = List.range' 1 ((ego.n.val - 1) / 2) := by
    rw [hlog]
    exact preLog_readW ego.is ego.n.val hn
  refine ⟨s, hs, hr, ?_, ?_, ?_, ?_⟩
  · rw [hr]
    exact List.nodup_range' 1 _
  · intro i hi
    rw [hr, List.mem_range'_1] at hi
    omega
  · intro h2
    have e : (ego.n.val - 1) / 2 = 0 := by omega
    rw [hr, e]
    rfl
  · intro h2 mktw
    have e1 : umul 2 ego.n.val = 2 * ego.n.val := by
      unfold umul UINT_MOD at *
      omega
    have e2 : uadd ego.n.val 1 = ego.n.val + 1 := uadd_of_lt (by omega)
    simp [awake, e1, e2]

/-- Instance of `apply_pre_twiddle_reads`: the active sample plan of reduced
size 3 reads `W[1]` only. -/
theorem apply_pre_twiddle_reads_witness :
    (1 ≤ sample_active.n.val ∧ sample_active.W = some (sample_mktw rodft00e_tw 6 1 2).W)
    ∧ ∃ s, apply_pre sample_active (fun _ => 5) sample_input (fun _ => 9) = .ok s
      ∧ s.log.filterMap Access.readWIdx = [1] := by
  refine ⟨⟨by decide, rfl⟩, ?_⟩
  obtain ⟨s, hs, hr, _⟩ := apply_pre_twiddle_reads sample_active _ (fun _ => 5) sample_input
    (fun _ => 9) (by decide) rfl
  exact ⟨s, hs, hr⟩

/-- With `n = 0` the first store of `apply`, `buf[0] = 0`, is outside the
scratch array of `n` cells. -/
theorem apply_zero_faults {α : Type} [Field α] (ego : P α) (scratch : Nat → α)
    (I O : Int → α) (hn : ego.n.val = 0) :
    apply ego scratch I O = .error (Fault.bufRange 0) := by
  have hpos : ¬ 0 < apply_buf_len ego := by
    unfold apply_buf_len
    omega
  unfold apply apply_pre
  simp only [hpos, if_false]

/-- Pre-processing only stores to the scratch array. -/
theorem preLog_bufIdx (is : Int) (n : Nat) :
    (preLog is n).filterMap Access.bufIdx = (preLog is n).filterMap Access.writeBufIdx := by
  have h : ∀ c i, (preIters is n i c).filterMap Access.bufIdx
      = (preIters is n i c).filterMap Access.writeBufIdx := by
    intro c
    induction c with
    | zero =>
      intro i
      simp [preIters]
    | succ c ih =>
      intro i
      simp [preIters, preIterLog, Access.bufIdx, Access.writeBufIdx, ih (i + 1)]
  unfold preLog
  by_cases hc : n % 2 = 0
  · simp [hc, h, Access.bufIdx, Access.writeBufIdx]
  · simp [hc, h, Access.bufIdx, Access.writeBufIdx]

/-- The iterations of the post-processing loop stay inside the scratch array. -/
theorem postIters_bufIdx (os : Int) (n : Nat) (c : Nat) :
    ∀ i, 1 ≤ i → i + c ≤ n → ∀ j ∈ (postIters os n i c).filterMap Access.bufIdx, j < n := by
  induction c with
  | zero =>
    intro i _ _ j hj
    simp [postIters] at hj
  | succ c ih =>
    intro i hi hic j hj
    simp only [postIters, postIterLog, List.filterMap_append, List.filterMap_cons,
      Access.bufIdx, List.filterMap_nil, List.mem_append, List.mem_cons, List.mem_nil_iff,
      List.cons_append, List.nil_append] at hj
    rcases hj with hj | hj | hj
    · omega
    · omega
    · exact ih (i + 1) (by omega) (by omega) j hj

/-- For `n ≥ 1` and a bound table, `apply` completes and every access to the
scratch array is at an index below `n`. -/
theorem apply_in_bounds {α : Type} [Field α] (ego : P α) (w : Nat → α) (scratch : Nat → α)
    (I O : Int → α) (hn : 1 ≤ ego.n.val) (hW : ego.W = some w) :
    ∃ s, apply ego scratch I O = .ok s
      ∧ ∀ j ∈ s.log.filterMap Access.bufIdx, j < ego.n.val := by
  obtain ⟨_, s, _, _, hs, hlog⟩ := apply_log ego w scratch I O hn hW
  refine ⟨s, hs, fun j hj => ?_⟩
  rw [hlog, List.filterMap_append, List.filterMap_cons] at hj
  simp only [Access.bufIdx, List.mem_append] at hj
  rcases hj with hj | hj
  · rw [preLog_bufIdx, (preLog_writeBuf_perm ego.is ego.n.val hn).mem_iff, List.mem_range] at hj
    exact hj
  · unfold postLog at hj
    simp only [List.filterMap_append, List.filterMap_cons, Access.bufIdx, List.filterMap_nil,
      List.mem_append, List.mem_cons, List.mem_nil_iff, List.cons_append,
      List.nil_append] at hj
    rcases hj with hj | hj | hj
    · omega
    · exact postIters_bufIdx ego.os ego.n.val _ 1 (le_refl 1) (by omega) j hj
    · by_cases hc : ego.n.val % 2 = 1 ∧ 3 ≤ ego.n.val
      · rw [if_pos hc] at hj
        simp [Access.bufIdx] at hj
        omega
      · rw [if_neg hc] at hj
        simp at hj

/-- C16 fails at extent 0. The sample problem of extent 0 is applicable,
`mkplan` builds a plan with `n = 0` for it, and on the activated plan the
first store of `apply`, `buf[0] = 0`, is outside the scratch array of 0
cells. -/
theorem apply_extent_zero_out_of_bounds :
    applicable sample_problem0 = true
    ∧ ∃ pln, (mkplan (fun _ => some sample_cld) 7 sample_problem0).1 = some pln
      ∧ pln.n.val = 0 ∧ apply_buf_len (awake sample_mktw pln true).1 = 0
      ∧ (awake sample_mktw pln true).1.W.isSome = true
      ∧ apply (awake sample_mktw pln true).1 (fun _ => 5) sample_input (fun _ => 9)
          = .error (Fault.bufRange 0) := by
  refine ⟨by decide, { sample_plan with n := ⟨0, by decide⟩, is := 1, os := 1 }, rfl, rfl,
    rfl, rfl, ?_⟩
  exact apply_zero_faults _ _ _ _ rfl

/-! ## The table `awake` requests -/

/-- One call of `awake` keeps `W` in step with `td` and leaves the other
fields alone. -/
theorem awake_keeps {α : Type} (mktw : List tw_instr → Nat → Nat → Nat → twid α)
    (ego : P α) (flg : Bool)
    (h1 : ∀ t, ego.td = some t → ego.W = some t.W) :
    (∀ t, (awake mktw ego flg).1.td = some t → (awake mktw ego flg).1.W = some t.W)
    ∧ ((awake mktw ego flg).1.td = none → (awake mktw ego flg).1.W = none)
    ∧ (awake mktw ego flg).1.n = ego.n ∧ (awake mktw ego flg).1.is = ego.is
    ∧ (awake mktw ego flg).1.os = ego.os ∧ (awake mktw ego flg).1.cld = ego.cld
    ∧ (awake mktw ego flg).1.ops = ego.ops := by
  cases flg with
  | false =>
    refine ⟨?_, fun _ => rfl, rfl, rfl, rfl, rfl, rfl⟩
    intro t ht
    simp [awake] at ht
  | true =>
    cases htd : ego.td with
    | none =>
      simp only [awake, htd, if_true]
      refine ⟨?_, ?_, trivial, trivial, trivial, trivial, trivial⟩
      · intro t ht
        simp only [Option.some.injEq] at ht
        rw [← ht]
      · intro h
        simp at h
    | some t0 =>
      simp only [awake, htd, if_true]
      refine ⟨?_, ?_, trivial, trivial, trivial, trivial, trivial⟩
      · intro t ht
        exact h1 t (htd.trans ht)
      · intro h
        cases h

/-- Any sequence of calls of `awake` keeps `W` in step with `td` and leaves
the other fields alone. -/
theorem awake_seq_keeps {α : Type} (mktw : List tw_instr → Nat → Nat → Nat → twid α)
    (flags : List Bool) :
    ∀ ego : P α, (∀ t, ego.td = some t → ego.W = some t.W) → (ego.td = none → ego.W = none) →
      (∀ t, (awake_seq mktw ego flags).td = some t → (awake_seq mktw ego flags).W = some t.W)
      ∧ ((awake_seq mktw ego flags).td = none → (awake_seq mktw ego flags).W = none)
      ∧ (awake_seq mktw ego flags).n = ego.n ∧ (awake_seq mktw ego flags).is = ego.is
      ∧ (awake_seq mktw ego flags).os = ego.os ∧ (awake_seq mktw ego flags).cld = ego.cld
      ∧ (awake_seq mktw ego flags).ops = ego.ops := by
  induction flags with
  | nil =>
    intro ego h1 h2
    exact ⟨h1, h2, rfl, rfl, rfl, rfl, rfl⟩
  | cons flg flags ih =>
    intro ego h1 _
    obtain ⟨a1, a2, a3, a4, a5, a6, a7⟩ := awake_keeps mktw ego flg h1
    obtain ⟨b1, b2, b3, b4, b5, b6, b7⟩ := ih (awake mktw ego flg).1 a1 a2
    have e : awake_seq mktw ego (flg :: flags)
        = awake_seq mktw (awake mktw ego flg).1 flags := rfl
    rw [e]
    exact ⟨b1, b2, b3.trans a3, b4.trans a4, b5.trans a5, b6.trans a6, b7.trans a7⟩

/-- A plan `mkplan` returns holds no table and has no coefficient pointer. -/
theorem mkplan_dormant {α : Type} (plnr : problem → Option (plan α)) (buf : ptr)
    (p_ : problem) (pln : P α) (h : (mkplan plnr buf p_).1 = some pln) :
    pln.td = none ∧ pln.W = none := by
  have happ : applicable p_ = true := by
    cases ha : applicable p_ with
    | true => rfl
    | false =>
      rw [mkplan_of_not_applicable plnr buf p_ ha] at h
      simp at h
  rw [mkplan_of_applicable plnr buf p_ happ, mkplan_body_plan] at h
  simp only [Option.map_eq_some'] at h
  obtain ⟨cld, _, rfl⟩ := h
  exact ⟨rfl, rfl⟩

/-- C20. In every plan state reached from a plan `mkplan` returned by any
sequence of calls `awake(ego, 1)` and `awake(ego, 0)`, `W` is set exactly when
a table `td` is held, `W` is then the array of that table, and `n`, `is`, `os`
and the sub-plan are those of the plan `mkplan` returned. -/
theorem awake_seq_invariant {α : Type} (plnr : problem → Option (plan α)) (buf : ptr)
    (p_ : problem) (pln : P α) (mktw : List tw_instr → Nat → Nat → Nat → twid α)
    (flags : List Bool) (h : (mkplan plnr buf p_).1 = some pln) :
    ((awake_seq mktw pln flags).W.isSome = (awake_seq mktw pln flags).td.isSome)
    ∧ (∀ t, (awake_seq mktw pln flags).td = some t →
        (awake_seq mktw pln flags).W = some t.W)
    ∧ (awake_seq mktw pln flags).n = pln.n
    ∧ (awake_seq mktw pln flags).is = pln.is
    ∧ (awake_seq mktw pln flags).os = pln.os
    ∧ (awake_seq mktw pln flags).cld = pln.cld := by
  obtain ⟨htd, hW⟩ := mkplan_dormant plnr buf p_ pln h
  obtain ⟨b1, b2, b3, b4, b5, b6, _⟩ := awake_seq_keeps mktw flags pln
    (fun t ht => by rw [htd] at ht; cases ht) (fun _ => hW)
  refine ⟨?_, b1, b3, b4, b5, b6⟩
  cases htd' : (awake_seq mktw pln flags).td with
  | none => rw [b2 htd']; rfl
  | some t => rw [b1 t htd']; rfl

/-- Instance of `awake_seq_invariant`: the sample plan through the calls
`awake(1), awake(1), awake(0), awake(1)`. -/
theorem awake_seq_invariant_witness :
    (mkplan (fun _ => some sample_cld) 7 sample_problem).1 = some sample_plan
    ∧ ((awake_seq sample_mktw sample_plan [true, true, false, true]).W.isSome
        = (awake_seq sample_mktw sample_plan [true, true, false, true]).td.isSome)
    ∧ (∀ t, (awake_seq sample_mktw sample_plan [true, true, false, true]).td = some t →
        (awake_seq sample_mktw sample_plan [true, true, false, true]).W = some t.W)
    ∧ (awake_seq sample_mktw sample_plan [true, true, false, true]).n = sample_plan.n
    ∧ (awake_seq sample_mktw sample_plan [true, true, false, true]).is = sample_plan.is
    ∧ (awake_seq sample_mktw sample_plan [true, true, false, true]).os = sample_plan.os
    ∧ (awake_seq sample_mktw sample_plan [true, true, false, true]).cld = sample_plan.cld :=
  ⟨rfl, awake_seq_invariant (fun _ => some sample_cld) 7 sample_problem sample_plan
    sample_mktw [true, true, false, true] rfl⟩

/-- For a plan `mkplan` returned with `n ≥ 1`, that is for every applicable
extent `M ≥ 2`, `apply` on the activated plan completes and stays inside the
scratch array. -/
theorem built_plan_in_bounds {α : Type} [Field α] (plnr : problem → Option (plan α))
    (buf : ptr) (p_ : problem) (pln : P α)
    (mktw : List tw_instr → Nat → Nat → Nat → twid α) (scratch : Nat → α) (I O : Int → α)
    (h : (mkplan plnr buf p_).1 = some pln) (hn : 1 ≤ pln.n.val) :
    ∃ s, apply (awake mktw pln true).1 scratch I O = .ok s
      ∧ ∀ j ∈ s.log.filterMap Access.bufIdx, j < apply_buf_len (awake mktw pln true).1 := by
  obtain ⟨htd, _⟩ := mkplan_dormant plnr buf p_ pln h
  have hW : (awake mktw pln true).1.W
      = some (mktw rodft00e_tw (umul 2 pln.n.val) 1 (uadd pln.n.val 1 / 2)).W := by
    simp [awake, htd]
  have hnn : (awake mktw pln true).1.n = pln.n := by
    simp [awake, htd]
  have hn' : 1 ≤ (awake mktw pln true).1.n.val := by
    rw [hnn]
    exact hn
  exact apply_in_bounds (awake mktw pln true).1 _ scratch I O hn' hW

end Rodft00e
